import Mathlib

set_option maxHeartbeats 1000000
set_option synthInstance.maxHeartbeats 1000000

/-!
# Verification of the regex core: compiler and NFA engine

This file gives a shallow embedding of the core of the regex crate under
verification: the bytecode compiler (`src/compile.rs`), the NFA simulation
engine (`src/nfa.rs`) and the set-execution plumbing (`src/set_exec.rs`),
together with theorems settling the specification claims.

Modelling conventions:
* Codepoints are represented as `Nat` (Rust `char`).
* Rust panics (out-of-bounds indexing, `unwrap` on `None`, patching a
  non-`Split` instruction) are modelled by the surrounding computation
  returning `none`.
* Loops whose termination is not structural are driven by an explicit fuel
  parameter; running out of fuel also yields `none`.  Theorems are stated
  for runs that produce `some` result, which excludes both panics and fuel
  exhaustion.
* Components of the repository that are not part of the given sources
  (`program.rs`, `inst.rs`, `input.rs`, `sparse.rs`, `exec.rs` and the
  external syntax crate) are modelled from the specification; each such
  definition carries a doc comment saying so.
-/

/-! ## AST (consumed from the external syntax crate) -/

/-- Modelled from the spec: a sorted class range of the external syntax
crate (`ClassRange { start, end }`); the `end` field is called `stop`
because `end` is reserved in Lean.  Codepoints are `Nat`. -/
structure ClassRange where
  start : Nat
  stop : Nat
deriving DecidableEq, Repr

/-- Modelled from the spec: the repetition operator of the AST,
`Repeater ∈ {ZeroOrOne, ZeroOrMore, OneOrMore, Range{min, max?}}`. -/
inductive Repeater where
  | ZeroOrOne
  | ZeroOrMore
  | OneOrMore
  | Range (min : Nat) (max : Option Nat)
deriving DecidableEq, Repr

/-- Modelled from the spec: the expression AST produced by the external
parser, with the variants listed in spec section 6. -/
inductive Expr where
  | Empty
  | Literal (chars : List Nat) (casei : Bool)
  | AnyChar
  | AnyCharNoNL
  | Class (cls : List ClassRange)
  | StartLine
  | EndLine
  | StartText
  | EndText
  | WordBoundary
  | NotWordBoundary
  | Group (e : Expr) (i : Option Nat) (name : Option String)
  | Concat (es : List Expr)
  | Alternate (es : List Expr)
  | Repeat (e : Expr) (r : Repeater) (greedy : Bool)

/-! ### Class canonicalization and case folding (syntax crate, modelled) -/

/-- Modelled from the spec: insert a range into a list sorted by `start`. -/
def insertRange (r : ClassRange) : List ClassRange → List ClassRange
  | [] => [r]
  | s :: t =>
    if r.start ≤ s.start then r :: s :: t else s :: insertRange r t

/-- Modelled from the spec: sort ranges by their start codepoint. -/
def sortRanges (l : List ClassRange) : List ClassRange :=
  l.foldr insertRange []

/-- Modelled from the spec: merge a pending range into the sorted tail,
combining overlapping or adjacent ranges. -/
def mergeInto (a : ClassRange) : List ClassRange → List ClassRange
  | [] => [a]
  | b :: t =>
    if b.start ≤ a.stop + 1 then
      mergeInto ⟨a.start, max a.stop b.stop⟩ t
    else
      a :: mergeInto b t

/-- Modelled from the spec: merge overlapping or adjacent sorted ranges. -/
def mergeRanges : List ClassRange → List ClassRange
  | [] => []
  | a :: t => mergeInto a t

/-- Modelled from the spec: `CharClass::new` canonicalizes its ranges into a
sorted, non-overlapping form. -/
def canonicalClass (l : List ClassRange) : List ClassRange :=
  mergeRanges (sortRanges l)

/-- Modelled from the spec: the simple case folds contributed by one range,
restricted to ASCII letters (a non-cased codepoint contributes nothing). -/
def foldsOfRange (r : ClassRange) : List ClassRange :=
  (if r.start ≤ 90 ∧ 65 ≤ r.stop then
    [⟨max r.start 65 + 32, min r.stop 90 + 32⟩] else []) ++
  (if r.start ≤ 122 ∧ 97 ≤ r.stop then
    [⟨max r.start 97 - 32, min r.stop 122 - 32⟩] else [])

/-- Modelled from the spec: `CharClass::case_fold` closes a class under
simple case folding and re-canonicalizes it. -/
def caseFold (l : List ClassRange) : List ClassRange :=
  canonicalClass (l ++ l.foldr (fun r acc => foldsOfRange r ++ acc) [])

/-! ## Compiler instruction stream (`program.rs` generation used by
`compile.rs`) -/

/-- Modelled from the spec: the instruction type of `program.rs` as used by
`compile.rs` (the source calls it `Inst`; named `CInst` here because the NFA
generation instruction type below also keeps its source name `Inst`).
`Save` carries a single slot index, `Match` no payload, and `Split`/`Jump`
carry instruction indices. -/
inductive CInst where
  | Save (slot : Nat)
  | Match
  | Char (c : Nat)
  | Ranges (rs : List (Nat × Nat))
  | EmptyLook (k : Nat)
  | Split (g1 g2 : Nat)
  | Jump (g : Nat)
deriving DecidableEq, Repr

/-- Modelled from the spec: `CharRanges::any` covers all codepoints. -/
def charRangesAny : List (Nat × Nat) := [(0, 1114111)]

/-- Modelled from the spec: `CharRanges::any_nonl` covers all codepoints
except the newline codepoint 10. -/
def charRangesAnyNoNL : List (Nat × Nat) := [(0, 9), (11, 1114111)]

/-- Modelled from the spec: `CharRanges::from_class` takes the sorted
non-overlapping ranges of a class. -/
def charRangesFromClass (cls : List ClassRange) : List (Nat × Nat) :=
  cls.map fun r => (r.start, r.stop)

/-- Modelled from the spec: the `EmptyLook` payload kinds; encoded as the
numbers 0-5 in the order StartLine, EndLine, StartText, EndText,
WordBoundary, NotWordBoundary. -/
def lookStartLine : Nat := 0
def lookEndLine : Nat := 1
def lookStartText : Nat := 2
def lookEndText : Nat := 3
def lookWordBoundary : Nat := 4
def lookNotWordBoundary : Nat := 5

/-- The compiler error: `Error::CompiledTooBig(size_limit)` is the only
recoverable compilation error (compile.rs, `check_size`). -/
inductive CErr where
  | compiledTooBig (n : Nat)
deriving DecidableEq, Repr

/-- The mutable part of the `Compiler` struct of compile.rs: the emitted
instructions and the capture names.  The immutable configuration
(`size_limit`, `reverse`) and the instruction byte size are passed as
separate parameters. -/
structure CState where
  insts : List CInst
  cap_names : List (Option String)
deriving DecidableEq, Repr

/-- Compiler.push: append an instruction (compile.rs line 260). -/
def CState.push (st : CState) (x : CInst) : CState :=
  { st with insts := st.insts ++ [x] }

/-- Compiler.empty_split: append `Split(0, 0)` and return its index
(compile.rs line 268). -/
def CState.emptySplit (st : CState) : CState × Nat :=
  ({ st with insts := st.insts ++ [CInst.Split 0 0] }, st.insts.length)

/-- Compiler.set_split: patch the split at index `i`; panics (modelled as
`none`) if the instruction there is not a `Split` (compile.rs line 278). -/
def CState.setSplit (st : CState) (i p1 p2 : Nat) : Option CState :=
  match st.insts.get? i with
  | some (CInst.Split _ _) =>
    some { st with insts := st.insts.set i (CInst.Split p1 p2) }
  | _ => none

/-- Compiler.empty_jump: append `Jump(0)` and return its index
(compile.rs line 289). -/
def CState.emptyJump (st : CState) : CState × Nat :=
  ({ st with insts := st.insts ++ [CInst.Jump 0] }, st.insts.length)

/-- Compiler.set_jump: patch the jump at index `i`; panics (modelled as
`none`) if the instruction there is not a `Jump` (compile.rs line 298). -/
def CState.setJump (st : CState) (i p : Nat) : Option CState :=
  match st.insts.get? i with
  | some (CInst.Jump _) =>
    some { st with insts := st.insts.set i (CInst.Jump p) }
  | _ => none

/-- Compiler.check_size: fail with `CompiledTooBig(size_limit)` when
`insts.len() * size_of::<Inst>() > size_limit` (compile.rs line 248).
`isz` stands for `size_of::<Inst>()`, which is a fixed positive constant in
the source and a parameter here. -/
def checkSize (isz limit : Nat) (st : CState) : Except CErr CState :=
  if st.insts.length * isz > limit then
    Except.error (CErr.compiledTooBig limit)
  else
    Except.ok st

instance {ε α : Type} [DecidableEq ε] [DecidableEq α] :
    DecidableEq (Except ε α) := fun a b =>
  match a, b with
  | Except.error e1, Except.error e2 =>
    if h : e1 = e2 then Decidable.isTrue (by rw [h])
    else Decidable.isFalse (by intro hc; cases hc; exact h rfl)
  | Except.error _, Except.ok _ => Decidable.isFalse (by intro hc; cases hc)
  | Except.ok _, Except.error _ => Decidable.isFalse (by intro hc; cases hc)
  | Except.ok a1, Except.ok a2 =>
    if h : a1 = a2 then Decidable.isTrue (by rw [h])
    else Decidable.isFalse (by intro hc; cases hc; exact h rfl)

/-- The result of a compiler computation: `none` models a panic or fuel
exhaustion, `some (Except.error e)` a `CompiledTooBig` failure, and
`some (Except.ok st)` success. -/
abbrev CRun : Type := Option (Except CErr CState)

/-- Sequencing of compiler computations (Rust `try!`). -/
def candThen (x : CRun) (f : CState → CRun) : CRun :=
  match x with
  | none => none
  | some (Except.error e) => some (Except.error e)
  | some (Except.ok st) => f st

/-- Lift an `Option CState` (a possibly panicking pure step) into `CRun`. -/
def cofOpt (x : Option CState) : CRun :=
  match x with
  | none => none
  | some st => some (Except.ok st)

/-- Patch every collected split of a bounded repetition to
`(start, end)` when greedy (or in reverse mode) and `(end, start)`
otherwise (compile.rs lines 236-242). -/
def patchSplits (gr : Bool) (endp : Nat) :
    List (Nat × Nat) → CState → Option CState
  | [], st => some st
  | (sp, start) :: rest, st =>
    match (if gr then st.setSplit sp start endp else st.setSplit sp endp start) with
    | none => none
    | some st => patchSplits gr endp rest st

/-- The instruction emitted for a class by the `Expr::Class` arm of
`Compiler::c` (compile.rs lines 86-92): a `Char` when the class is a single
codepoint (`cls.len() == 1 && cls[0].start == cls[0].end`), otherwise a
`Ranges` over the class ranges. -/
def classInst (cls : List ClassRange) : CInst :=
  match cls with
  | [r] =>
    if r.start = r.stop then CInst.Char r.start
    else CInst.Ranges (charRangesFromClass cls)
  | _ => CInst.Ranges (charRangesFromClass cls)

/-- The work items of the compiler: `one e` is a call `self.c(e)`; the other
constructors are the emission loops of the corresponding arms of
`Compiler::c`, made explicit so that the whole compiler is one function
structurally recursive on fuel.  `lits` is the per-codepoint loop of the
`Literal` arm; `seq` the child loop of `Concat`; `alts` the child loop of
`Alternate` carrying the collected jump indices; `times` the `min` unroll
loop of bounded repetition; `optcopies` the optional-copy loop of
`Repeat Range{min, Some(max)}` carrying the collected split indices and
copy start addresses. -/
inductive CReq where
  | one (ast : Expr)
  | lits (casei : Bool) (chars : List Nat)
  | seq (es : List Expr)
  | alts (es : List Expr) (jmps : List Nat)
  | times (e : Expr) (n : Nat)
  | optcopies (e : Expr) (n : Nat) (greedy : Bool)
      (splits : List Nat) (starts : List Nat)

/-- Compiler::c (compile.rs lines 62-246), as a single fuel-indexed
function over work items.  Every arm of the source `match` ends by falling
through to `check_size`; the only exception is the empty `Alternate`, whose
early `return Ok(())` skips the check.  Recursive `self.c(e)` calls become
recursive `cRun` calls at smaller fuel, including the calls the source
makes on freshly constructed nodes (`Expr::Class` for case folding,
`Expr::Repeat ZeroOrMore` for `Range{min, None}`). -/
def cRun (isz limit : Nat) (rev : Bool) : Nat → CReq → CState → CRun
  | 0, _, _ => none
  | _ + 1, CReq.one Expr.Empty, st => some (checkSize isz limit st)
  | fuel + 1, CReq.one (Expr.Literal chars casei), st =>
    candThen
      (cRun isz limit rev fuel
        (CReq.lits casei (if rev then chars.reverse else chars)) st)
      (fun st => some (checkSize isz limit st))
  | _ + 1, CReq.one Expr.AnyChar, st =>
    some (checkSize isz limit (st.push (CInst.Ranges charRangesAny)))
  | _ + 1, CReq.one Expr.AnyCharNoNL, st =>
    some (checkSize isz limit (st.push (CInst.Ranges charRangesAnyNoNL)))
  | _ + 1, CReq.one (Expr.Class cls), st =>
    some (checkSize isz limit (st.push (classInst cls)))
  | _ + 1, CReq.one Expr.StartLine, st =>
    some (checkSize isz limit (st.push (CInst.EmptyLook lookStartLine)))
  | _ + 1, CReq.one Expr.EndLine, st =>
    some (checkSize isz limit (st.push (CInst.EmptyLook lookEndLine)))
  | _ + 1, CReq.one Expr.StartText, st =>
    some (checkSize isz limit (st.push (CInst.EmptyLook lookStartText)))
  | _ + 1, CReq.one Expr.EndText, st =>
    some (checkSize isz limit (st.push (CInst.EmptyLook lookEndText)))
  | _ + 1, CReq.one Expr.WordBoundary, st =>
    some (checkSize isz limit (st.push (CInst.EmptyLook lookWordBoundary)))
  | _ + 1, CReq.one Expr.NotWordBoundary, st =>
    some (checkSize isz limit (st.push (CInst.EmptyLook lookNotWordBoundary)))
  | fuel + 1, CReq.one (Expr.Group e none none), st =>
    candThen (cRun isz limit rev fuel (CReq.one e) st)
      (fun st => some (checkSize isz limit st))
  | fuel + 1, CReq.one (Expr.Group e i name), st =>
    -- `i.expect("capture index")` panics when a named group has no index.
    match i with
    | none => none
    | some i =>
      let st := { st with cap_names := st.cap_names ++ [name] }
      let st := st.push (CInst.Save (2 * i))
      candThen (cRun isz limit rev fuel (CReq.one e) st)
        (fun st =>
          some (checkSize isz limit (st.push (CInst.Save (2 * i + 1)))))
  | fuel + 1, CReq.one (Expr.Concat es), st =>
    candThen
      (cRun isz limit rev fuel (CReq.seq (if rev then es.reverse else es)) st)
      (fun st => some (checkSize isz limit st))
  | _ + 1, CReq.one (Expr.Alternate []), st => some (Except.ok st)
  | fuel + 1, CReq.one (Expr.Alternate (e :: es)), st =>
    candThen (cRun isz limit rev fuel (CReq.alts (e :: es) []) st)
      (fun st => some (checkSize isz limit st))
  | fuel + 1, CReq.one (Expr.Repeat e Repeater.ZeroOrOne greedy), st =>
    let (st, split) := st.emptySplit
    let j1 := st.insts.length
    candThen (cRun isz limit rev fuel (CReq.one e) st)
      (fun st =>
        let j2 := st.insts.length
        candThen
          (cofOpt (if greedy || rev then st.setSplit split j1 j2
                   else st.setSplit split j2 j1))
          (fun st => some (checkSize isz limit st)))
  | fuel + 1, CReq.one (Expr.Repeat e Repeater.ZeroOrMore greedy), st =>
    let j1 := st.insts.length
    let (st, split) := st.emptySplit
    let j2 := st.insts.length
    candThen (cRun isz limit rev fuel (CReq.one e) st)
      (fun st =>
        let (st, jmp) := st.emptyJump
        let j3 := st.insts.length
        candThen (cofOpt (st.setJump jmp j1))
          (fun st =>
            candThen
              (cofOpt (if greedy || rev then st.setSplit split j2 j3
                       else st.setSplit split j3 j2))
              (fun st => some (checkSize isz limit st))))
  | fuel + 1, CReq.one (Expr.Repeat e Repeater.OneOrMore greedy), st =>
    let j1 := st.insts.length
    candThen (cRun isz limit rev fuel (CReq.one e) st)
      (fun st =>
        let (st, split) := st.emptySplit
        let j2 := st.insts.length
        candThen
          (cofOpt (if greedy || rev then st.setSplit split j1 j2
                   else st.setSplit split j2 j1))
          (fun st => some (checkSize isz limit st)))
  | fuel + 1, CReq.one (Expr.Repeat e (Repeater.Range min none) greedy), st =>
    candThen (cRun isz limit rev fuel (CReq.times e min) st)
      (fun st =>
        candThen
          (cRun isz limit rev fuel
            (CReq.one (Expr.Repeat e Repeater.ZeroOrMore greedy)) st)
          (fun st => some (checkSize isz limit st)))
  | fuel + 1, CReq.one (Expr.Repeat e (Repeater.Range min (some max)) greedy), st =>
    candThen (cRun isz limit rev fuel (CReq.times e min) st)
      (fun st =>
        candThen
          (cRun isz limit rev fuel
            (CReq.optcopies e (max - min) greedy [] []) st)
          (fun st => some (checkSize isz limit st)))
  | _ + 1, CReq.lits _ [], st => some (Except.ok st)
  | fuel + 1, CReq.lits casei (ch :: rest), st =>
    candThen
      (if casei then
        cRun isz limit rev fuel
          (CReq.one (Expr.Class (caseFold (canonicalClass [⟨ch, ch⟩])))) st
      else some (Except.ok (st.push (CInst.Char ch))))
      (fun st => cRun isz limit rev fuel (CReq.lits casei rest) st)
  | _ + 1, CReq.seq [], st => some (Except.ok st)
  | fuel + 1, CReq.seq (e :: rest), st =>
    candThen (cRun isz limit rev fuel (CReq.one e) st)
      (fun st => cRun isz limit rev fuel (CReq.seq rest) st)
  | _ + 1, CReq.alts [] _, st => some (Except.ok st)
  | fuel + 1, CReq.alts [e] jmps, st =>
    candThen (cRun isz limit rev fuel (CReq.one e) st)
      (fun st =>
        let endp := st.insts.length
        cofOpt (jmps.foldlM (fun st j => st.setJump j endp) st))
  | fuel + 1, CReq.alts (e :: e2 :: rest) jmps, st =>
    let (st, split) := st.emptySplit
    let j1 := st.insts.length
    candThen (cRun isz limit rev fuel (CReq.one e) st)
      (fun st =>
        let (st, jmp) := st.emptyJump
        let j2 := st.insts.length
        candThen (cofOpt (st.setSplit split j1 j2))
          (fun st =>
            cRun isz limit rev fuel
              (CReq.alts (e2 :: rest) (jmps ++ [jmp])) st))
  | _ + 1, CReq.times _ 0, st => some (Except.ok st)
  | fuel + 1, CReq.times e (n + 1), st =>
    candThen (cRun isz limit rev fuel (CReq.one e) st)
      (fun st => cRun isz limit rev fuel (CReq.times e n) st)
  | _ + 1, CReq.optcopies _ 0 greedy splits starts, st =>
    let endp := st.insts.length
    cofOpt (patchSplits (greedy || rev) endp (splits.zip starts) st)
  | fuel + 1, CReq.optcopies e (n + 1) greedy splits starts, st =>
    let (st, split) := st.emptySplit
    let start := st.insts.length
    candThen (cRun isz limit rev fuel (CReq.one e) st)
      (fun st =>
        cRun isz limit rev fuel
          (CReq.optcopies e n greedy (splits ++ [split]) (starts ++ [start])) st)

/-- Compiler::compile (compile.rs lines 43-49): `Save(0)`, the body, then
`Save(1)` and `Match`; `reverse` is false. -/
def compile (isz limit fuel : Nat) (ast : Expr) :
    Option (Except CErr (List CInst × List (Option String))) :=
  match cRun isz limit false fuel (CReq.one ast) ⟨[CInst.Save 0], [none]⟩ with
  | none => none
  | some (Except.error e) => some (Except.error e)
  | some (Except.ok st) =>
    some (Except.ok (st.insts ++ [CInst.Save 1, CInst.Match], st.cap_names))

/-- Compiler::compile_reverse (compile.rs lines 53-60): as `compile` but
with `reverse = true`, returning only the instructions. -/
def compileReverse (isz limit fuel : Nat) (ast : Expr) :
    Option (Except CErr (List CInst)) :=
  match cRun isz limit true fuel (CReq.one ast) ⟨[CInst.Save 0], [none]⟩ with
  | none => none
  | some (Except.error e) => some (Except.error e)
  | some (Except.ok st) =>
    some (Except.ok (st.insts ++ [CInst.Save 1, CInst.Match]))

/-! ### Compiler lemmas: the only failure is `CompiledTooBig(size_limit)` -/

theorem candThen_error_cases {x : CRun} {f : CState → CRun} {e : CErr}
    (h : candThen x f = some (Except.error e)) :
    x = some (Except.error e) ∨
      ∃ st, x = some (Except.ok st) ∧ f st = some (Except.error e) := by
  cases x with
  | none => exact absurd h (by simp [candThen])
  | some r =>
    cases r with
    | error e2 =>
      have h2 : (some (Except.error e2) : CRun) = some (Except.error e) := h
      have he : e2 = e := Except.error.inj (Option.some.inj h2)
      exact Or.inl (by rw [he])
    | ok st => exact Or.inr ⟨st, rfl, by simpa [candThen] using h⟩

theorem errCheck {isz limit : Nat} {st : CState} {e : CErr}
    (h : some (checkSize isz limit st) = some (Except.error e)) :
    e = CErr.compiledTooBig limit := by
  have h' := Option.some.inj h
  unfold checkSize at h'
  split at h'
  · cases h'; rfl
  · cases h'

theorem errOkFalse {st : CState} {e : CErr}
    (h : (some (Except.ok st) : CRun) = some (Except.error e)) : False := by
  cases Option.some.inj h

theorem errCofOpt {x : Option CState} {e : CErr}
    (h : cofOpt x = some (Except.error e)) : False := by
  cases x with
  | none => simp [cofOpt] at h
  | some st => exact errOkFalse h

theorem errStep {limit : Nat} {x : CRun} {f : CState → CRun} {e : CErr}
    (h : candThen x f = some (Except.error e))
    (hx : x = some (Except.error e) → e = CErr.compiledTooBig limit)
    (hf : ∀ st, f st = some (Except.error e) → e = CErr.compiledTooBig limit) :
    e = CErr.compiledTooBig limit := by
  rcases candThen_error_cases h with h1 | ⟨st, _, h2⟩
  · exact hx h1
  · exact hf st h2

/-- Every error produced by the compiler carries the configured size limit:
the sole error source is `check_size`, which reports
`CompiledTooBig(size_limit)`. -/
theorem cRun_error (isz limit : Nat) (rev : Bool) :
    ∀ fuel req st e,
      cRun isz limit rev fuel req st = some (Except.error e) →
      e = CErr.compiledTooBig limit := by
  intro fuel
  induction fuel with
  | zero => intro req st e h; simp [cRun] at h
  | succ fuel ih =>
    intro req st e h
    cases req with
    | one ast =>
      cases ast with
      | Empty => exact errCheck h
      | Literal chars casei =>
        simp only [cRun] at h
        exact errStep h (fun h1 => ih _ _ _ h1) (fun st h2 => errCheck h2)
      | AnyChar => exact errCheck h
      | AnyCharNoNL => exact errCheck h
      | Class cls =>
        simp only [cRun] at h
        exact errCheck h
      | StartLine => exact errCheck h
      | EndLine => exact errCheck h
      | StartText => exact errCheck h
      | EndText => exact errCheck h
      | WordBoundary => exact errCheck h
      | NotWordBoundary => exact errCheck h
      | Group e' i name =>
        cases i with
        | none =>
          cases name with
          | none =>
            simp only [cRun] at h
            exact errStep h (fun h1 => ih _ _ _ h1) (fun st h2 => errCheck h2)
          | some nm =>
            simp [cRun] at h
        | some i =>
          simp only [cRun] at h
          exact errStep h (fun h1 => ih _ _ _ h1) (fun st h2 => errCheck h2)
      | Concat es =>
        simp only [cRun] at h
        exact errStep h (fun h1 => ih _ _ _ h1) (fun st h2 => errCheck h2)
      | Alternate es =>
        cases es with
        | nil => exact (errOkFalse h).elim
        | cons e' rest =>
          simp only [cRun] at h
          exact errStep h (fun h1 => ih _ _ _ h1) (fun st h2 => errCheck h2)
      | Repeat e' r greedy =>
        cases r with
        | ZeroOrOne =>
          simp only [cRun] at h
          exact errStep h (fun h1 => ih _ _ _ h1)
            (fun st h2 => errStep h2 (fun h3 => (errCofOpt h3).elim)
              (fun st h4 => errCheck h4))
        | ZeroOrMore =>
          simp only [cRun] at h
          exact errStep h (fun h1 => ih _ _ _ h1)
            (fun st h2 => errStep h2 (fun h3 => (errCofOpt h3).elim)
              (fun st h4 => errStep h4 (fun h5 => (errCofOpt h5).elim)
                (fun st h6 => errCheck h6)))
        | OneOrMore =>
          simp only [cRun] at h
          exact errStep h (fun h1 => ih _ _ _ h1)
            (fun st h2 => errStep h2 (fun h3 => (errCofOpt h3).elim)
              (fun st h4 => errCheck h4))
        | Range min max =>
          cases max with
          | none =>
            simp only [cRun] at h
            exact errStep h (fun h1 => ih _ _ _ h1)
              (fun st h2 => errStep h2 (fun h3 => ih _ _ _ h3)
                (fun st h4 => errCheck h4))
          | some max =>
            simp only [cRun] at h
            exact errStep h (fun h1 => ih _ _ _ h1)
              (fun st h2 => errStep h2 (fun h3 => ih _ _ _ h3)
                (fun st h4 => errCheck h4))
    | lits casei chars =>
      cases chars with
      | nil => exact (errOkFalse h).elim
      | cons ch rest =>
        simp only [cRun] at h
        refine errStep h ?_ (fun st h2 => ih _ _ _ h2)
        intro h1
        cases casei with
        | true => exact ih _ _ _ h1
        | false => exact (errOkFalse h1).elim
    | seq es =>
      cases es with
      | nil => exact (errOkFalse h).elim
      | cons e' rest =>
        simp only [cRun] at h
        exact errStep h (fun h1 => ih _ _ _ h1) (fun st h2 => ih _ _ _ h2)
    | alts es jmps =>
      cases es with
      | nil => exact (errOkFalse h).elim
      | cons e' rest =>
        cases rest with
        | nil =>
          simp only [cRun] at h
          exact errStep h (fun h1 => ih _ _ _ h1)
            (fun st h2 => (errCofOpt h2).elim)
        | cons e2 rest2 =>
          simp only [cRun] at h
          exact errStep h (fun h1 => ih _ _ _ h1)
            (fun st h2 => errStep h2 (fun h3 => (errCofOpt h3).elim)
              (fun st h4 => ih _ _ _ h4))
    | times e' n =>
      cases n with
      | zero => exact (errOkFalse h).elim
      | succ n =>
        simp only [cRun] at h
        exact errStep h (fun h1 => ih _ _ _ h1) (fun st h2 => ih _ _ _ h2)
    | optcopies e' n greedy splits starts =>
      cases n with
      | zero =>
        simp only [cRun] at h
        exact (errCofOpt h).elim
      | succ n =>
        simp only [cRun] at h
        exact errStep h (fun h1 => ih _ _ _ h1) (fun st h2 => ih _ _ _ h2)

/-! ### Compiler lemmas: emission only appends; patches stay local -/

theorem checkSize_ok {isz limit : Nat} {st st2 : CState}
    (h : checkSize isz limit st = Except.ok st2) : st2 = st := by
  unfold checkSize at h
  split at h
  · cases h
  · cases h; rfl

theorem candThen_ok_cases {x : CRun} {f : CState → CRun} {st2 : CState}
    (h : candThen x f = some (Except.ok st2)) :
    ∃ st1, x = some (Except.ok st1) ∧ f st1 = some (Except.ok st2) := by
  cases x with
  | none => exact absurd h (by simp [candThen])
  | some r =>
    cases r with
    | error e2 => exact absurd (Option.some.inj h) (by simp [candThen])
    | ok st1 => exact ⟨st1, rfl, h⟩

theorem cofOpt_ok {x : Option CState} {st2 : CState}
    (h : cofOpt x = some (Except.ok st2)) : x = some st2 := by
  cases x with
  | none => simp [cofOpt] at h
  | some st => cases Option.some.inj h; rfl

/-- Positions below `n` and outside the patch set `ex` are untouched when
going from `st` to `st2`, and `st2` is at least `n` long. -/
def PreservesBelow (n : Nat) (ex : List Nat) (st st2 : CState) : Prop :=
  n ≤ st2.insts.length ∧
  ∀ k, k < n → k ∉ ex → st2.insts.get? k = st.insts.get? k

theorem pres_refl {n : Nat} {ex : List Nat} {st : CState}
    (h : n ≤ st.insts.length) : PreservesBelow n ex st st :=
  ⟨h, fun _ _ _ => rfl⟩

theorem pres_trans {n : Nat} {ex : List Nat} {st st1 st2 : CState}
    (h1 : PreservesBelow n ex st st1) (h2 : PreservesBelow n ex st1 st2) :
    PreservesBelow n ex st st2 :=
  ⟨h2.1, fun k hk hke => (h2.2 k hk hke).trans (h1.2 k hk hke)⟩

theorem pres_insts_eq {n : Nat} {ex : List Nat} {st st2 : CState}
    (h : st2.insts = st.insts) (hn : n ≤ st.insts.length) :
    PreservesBelow n ex st st2 :=
  ⟨by rw [h]; exact hn, fun _ _ _ => by rw [h]⟩

theorem pres_push {n : Nat} {ex : List Nat} {st : CState} (x : CInst)
    (h : n ≤ st.insts.length) : PreservesBelow n ex st (st.push x) := by
  refine ⟨?_, fun k hk _ => ?_⟩
  · simp [CState.push]
    omega
  · exact List.get?_append (Nat.lt_of_lt_of_le hk h)

theorem pres_weaken {n n2 : Nat} {ex ex2 : List Nat} {st st2 : CState}
    (h : PreservesBelow n2 ex2 st st2) (hn : n ≤ n2)
    (hex : ∀ k, k < n → k ∉ ex → k ∉ ex2) : PreservesBelow n ex st st2 :=
  ⟨Nat.le_trans hn h.1,
   fun k hk hke => h.2 k (Nat.lt_of_lt_of_le hk hn) (hex k hk hke)⟩

theorem setSplit_len {st st2 : CState} {i p1 p2 : Nat}
    (h : st.setSplit i p1 p2 = some st2) :
    st2.insts.length = st.insts.length := by
  unfold CState.setSplit at h
  split at h
  · cases Option.some.inj h; simp
  · cases h

theorem setSplit_get {st st2 : CState} {i p1 p2 : Nat}
    (h : st.setSplit i p1 p2 = some st2) :
    ∀ k, k ≠ i → st2.insts.get? k = st.insts.get? k := by
  unfold CState.setSplit at h
  split at h
  · cases Option.some.inj h
    intro k hk
    exact List.get?_set_ne _ _ (fun he => hk he.symm)
  · cases h

theorem setJump_len {st st2 : CState} {i p : Nat}
    (h : st.setJump i p = some st2) :
    st2.insts.length = st.insts.length := by
  unfold CState.setJump at h
  split at h
  · cases Option.some.inj h; simp
  · cases h

theorem setJump_get {st st2 : CState} {i p : Nat}
    (h : st.setJump i p = some st2) :
    ∀ k, k ≠ i → st2.insts.get? k = st.insts.get? k := by
  unfold CState.setJump at h
  split at h
  · cases Option.some.inj h
    intro k hk
    exact List.get?_set_ne _ _ (fun he => hk he.symm)
  · cases h

theorem setSplit_pres {n i p1 p2 : Nat} {ex : List Nat} {st st2 : CState}
    (h : st.setSplit i p1 p2 = some st2) (hn : n ≤ st.insts.length)
    (hi : ∀ k, k < n → k ∉ ex → k ≠ i) : PreservesBelow n ex st st2 :=
  ⟨by rw [setSplit_len h]; exact hn,
   fun k hk hke => setSplit_get h k (hi k hk hke)⟩

theorem setSplit_ite_pres {cnd : Bool} {n i a1 a2 b1 b2 : Nat}
    {ex : List Nat} {st st2 : CState}
    (h : cofOpt (if cnd then st.setSplit i a1 a2 else st.setSplit i b1 b2) =
      some (Except.ok st2))
    (hn : n ≤ st.insts.length)
    (hi : ∀ k, k < n → k ∉ ex → k ≠ i) : PreservesBelow n ex st st2 := by
  cases cnd with
  | true => exact setSplit_pres (cofOpt_ok h) hn hi
  | false => exact setSplit_pres (cofOpt_ok h) hn hi

theorem setJump_pres {n i p : Nat} {ex : List Nat} {st st2 : CState}
    (h : st.setJump i p = some st2) (hn : n ≤ st.insts.length)
    (hi : ∀ k, k < n → k ∉ ex → k ≠ i) : PreservesBelow n ex st st2 :=
  ⟨by rw [setJump_len h]; exact hn,
   fun k hk hke => setJump_get h k (hi k hk hke)⟩

theorem setJumpFold_pres {endp n : Nat} {ex : List Nat} :
    ∀ (jmps : List Nat) (st st2 : CState),
      jmps.foldlM (fun st j => st.setJump j endp) st = some st2 →
      n ≤ st.insts.length →
      (∀ k, k < n → k ∉ ex → k ∉ jmps) →
      PreservesBelow n ex st st2 := by
  intro jmps
  induction jmps with
  | nil =>
    intro st st2 h hn _
    cases Option.some.inj h
    exact pres_refl hn
  | cons j rest ih =>
    intro st st2 h hn hni
    rw [List.foldlM_cons] at h
    cases hj : st.setJump j endp with
    | none => rw [hj] at h; cases h
    | some sta =>
      rw [hj] at h
      have h1 : PreservesBelow n ex st sta :=
        setJump_pres hj hn
          (fun k hk hke => fun he =>
            hni k hk hke (he ▸ List.mem_cons_self j rest))
      have h2 : PreservesBelow n ex sta st2 :=
        ih sta st2 h (by rw [setJump_len hj]; exact hn)
          (fun k hk hke hm => hni k hk hke (List.mem_cons_of_mem j hm))
      exact pres_trans h1 h2

theorem patchSplits_pres {gr : Bool} {endp n : Nat} {ex : List Nat} :
    ∀ (l : List (Nat × Nat)) (st st2 : CState),
      patchSplits gr endp l st = some st2 →
      n ≤ st.insts.length →
      (∀ k, k < n → k ∉ ex → ∀ p ∈ l, k ≠ p.1) →
      PreservesBelow n ex st st2 := by
  intro l
  induction l with
  | nil =>
    intro st st2 h hn _
    cases Option.some.inj h
    exact pres_refl hn
  | cons p rest ih =>
    intro st st2 h hn hni
    unfold patchSplits at h
    rcases hsp : (if gr then st.setSplit p.1 p.2 endp
                  else st.setSplit p.1 endp p.2) with _ | sta
    · rw [hsp] at h; cases h
    · rw [hsp] at h
      have hsp2 : st.setSplit p.1 (if gr then p.2 else endp)
          (if gr then endp else p.2) = some sta := by
        cases gr <;> simpa using hsp
      have h1 : PreservesBelow n ex st sta :=
        setSplit_pres hsp2 hn
          (fun k hk hke => hni k hk hke p (List.mem_cons_self p rest))
      have h2 : PreservesBelow n ex sta st2 :=
        ih sta st2 h (by rw [setSplit_len hsp2]; exact hn)
          (fun k hk hke q hq => hni k hk hke q (List.mem_cons_of_mem p hq))
      exact pres_trans h1 h2

/-- The patch set of a work item: indices below the entry point that the
item may rewrite (the collected jumps of an alternation; the collected
splits of a bounded repetition). -/
def patchIdxs : CReq → List Nat
  | CReq.one _ => []
  | CReq.lits _ _ => []
  | CReq.seq _ => []
  | CReq.alts _ jmps => jmps
  | CReq.times _ _ => []
  | CReq.optcopies _ _ _ splits _ => splits

/-- Emission only appends: a successful `Compiler::c` call never changes
instructions that existed on entry, except for the patch indices its work
item carries (which the source only ever points at `Split`/`Jump`
placeholders it created itself). -/
theorem cRun_pres (isz limit : Nat) (rev : Bool) :
    ∀ fuel req st st2,
      cRun isz limit rev fuel req st = some (Except.ok st2) →
      PreservesBelow st.insts.length (patchIdxs req) st st2 := by
  intro fuel
  induction fuel with
  | zero => intro req st st2 h; simp [cRun] at h
  | succ fuel ih =>
    intro req st st2 h
    cases req with
    | one ast =>
      cases ast with
      | Empty =>
        cases checkSize_ok (Option.some.inj h)
        exact pres_refl (Nat.le_refl _)
      | Literal chars casei =>
        simp only [cRun] at h
        rcases candThen_ok_cases h with ⟨st1, h1, h2⟩
        cases checkSize_ok (Option.some.inj h2)
        exact pres_weaken (ih _ _ _ h1) (Nat.le_refl _) (fun _ _ hx => hx)
      | AnyChar =>
        cases checkSize_ok (Option.some.inj h)
        exact pres_push _ (Nat.le_refl _)
      | AnyCharNoNL =>
        cases checkSize_ok (Option.some.inj h)
        exact pres_push _ (Nat.le_refl _)
      | Class cls =>
        cases checkSize_ok (Option.some.inj h)
        exact pres_push _ (Nat.le_refl _)
      | StartLine =>
        cases checkSize_ok (Option.some.inj h)
        exact pres_push _ (Nat.le_refl _)
      | EndLine =>
        cases checkSize_ok (Option.some.inj h)
        exact pres_push _ (Nat.le_refl _)
      | StartText =>
        cases checkSize_ok (Option.some.inj h)
        exact pres_push _ (Nat.le_refl _)
      | EndText =>
        cases checkSize_ok (Option.some.inj h)
        exact pres_push _ (Nat.le_refl _)
      | WordBoundary =>
        cases checkSize_ok (Option.some.inj h)
        exact pres_push _ (Nat.le_refl _)
      | NotWordBoundary =>
        cases checkSize_ok (Option.some.inj h)
        exact pres_push _ (Nat.le_refl _)
      | Group e' i name =>
        cases i with
        | none =>
          cases name with
          | none =>
            simp only [cRun] at h
            rcases candThen_ok_cases h with ⟨st1, h1, h2⟩
            cases checkSize_ok (Option.some.inj h2)
            exact pres_weaken (ih _ _ _ h1) (Nat.le_refl _) (fun _ _ hx => hx)
          | some nm => simp [cRun] at h
        | some i =>
          simp only [cRun] at h
          rcases candThen_ok_cases h with ⟨st1, h1, h2⟩
          cases checkSize_ok (Option.some.inj h2)
          have p1 : PreservesBelow st.insts.length []
              st ({ st with cap_names := st.cap_names ++ [name] } : CState) :=
            pres_insts_eq rfl (Nat.le_refl _)
          have p2 : PreservesBelow st.insts.length [] st
              (({ st with cap_names := st.cap_names ++ [name] } : CState).push
                (CInst.Save (2 * i))) :=
            pres_trans p1 (pres_push _ p1.1)
          have p3 := pres_weaken (ih _ _ _ h1) p2.1 (fun _ _ hx => hx)
          have p4 := pres_trans p2 p3
          exact pres_trans p4 (pres_push _ p4.1)
      | Concat es =>
        simp only [cRun] at h
        rcases candThen_ok_cases h with ⟨st1, h1, h2⟩
        cases checkSize_ok (Option.some.inj h2)
        exact pres_weaken (ih _ _ _ h1) (Nat.le_refl _) (fun _ _ hx => hx)
      | Alternate es =>
        cases es with
        | nil =>
          cases Option.some.inj h |> Except.ok.inj
          exact pres_refl (Nat.le_refl _)
        | cons e' rest =>
          simp only [cRun] at h
          rcases candThen_ok_cases h with ⟨st1, h1, h2⟩
          cases checkSize_ok (Option.some.inj h2)
          exact pres_weaken (ih _ _ _ h1) (Nat.le_refl _) (fun _ _ _ => by simp [patchIdxs])
      | Repeat e' r greedy =>
        cases r with
        | ZeroOrOne =>
          simp only [cRun] at h
          rcases candThen_ok_cases h with ⟨st1, h1, h2⟩
          rcases candThen_ok_cases h2 with ⟨st3, h3, h4⟩
          cases checkSize_ok (Option.some.inj h4)
          have p1 : PreservesBelow st.insts.length [] st
              { st with insts := st.insts ++ [CInst.Split 0 0] } :=
            pres_push _ (Nat.le_refl _)
          have p2 := pres_trans p1
            (pres_weaken (ih _ _ _ h1) p1.1 (fun _ _ hx => hx))
          have p3 := pres_trans p2
            (setSplit_ite_pres h3 p2.1 (fun k hk _ => Nat.ne_of_lt hk))
          exact p3
        | ZeroOrMore =>
          simp only [cRun] at h
          rcases candThen_ok_cases h with ⟨st1, h1, h2⟩
          rcases candThen_ok_cases h2 with ⟨st3, h3, h4⟩
          rcases candThen_ok_cases h4 with ⟨st5, h5, h6⟩
          cases checkSize_ok (Option.some.inj h6)
          have p1 : PreservesBelow st.insts.length [] st
              { st with insts := st.insts ++ [CInst.Split 0 0] } :=
            pres_push _ (Nat.le_refl _)
          have p2 := pres_trans p1
            (pres_weaken (ih _ _ _ h1) p1.1 (fun _ _ hx => hx))
          have p3 := pres_trans p2 (pres_push (CInst.Jump 0) p2.1)
          have p4 := pres_trans p3
            (setJump_pres (cofOpt_ok h3) p3.1
              (fun k hk _ => Nat.ne_of_lt (Nat.lt_of_lt_of_le hk p2.1)))
          have p5 := pres_trans p4
            (setSplit_ite_pres h5 p4.1 (fun k hk _ => Nat.ne_of_lt hk))
          exact p5
        | OneOrMore =>
          simp only [cRun] at h
          rcases candThen_ok_cases h with ⟨st1, h1, h2⟩
          rcases candThen_ok_cases h2 with ⟨st3, h3, h4⟩
          cases checkSize_ok (Option.some.inj h4)
          have p1 := pres_weaken (ih _ _ _ h1) (Nat.le_refl _) (fun _ _ hx => hx)
          have p2 := pres_trans p1 (pres_push (CInst.Split 0 0) p1.1)
          have p3 := pres_trans p2
            (setSplit_ite_pres h3 p2.1
              (fun k hk _ => Nat.ne_of_lt (Nat.lt_of_lt_of_le hk p1.1)))
          exact p3
        | Range min max =>
          cases max with
          | none =>
            simp only [cRun] at h
            rcases candThen_ok_cases h with ⟨st1, h1, h2⟩
            rcases candThen_ok_cases h2 with ⟨st3, h3, h4⟩
            cases checkSize_ok (Option.some.inj h4)
            have p1 := pres_weaken (ih _ _ _ h1) (Nat.le_refl _) (fun _ _ hx => hx)
            have p2 := pres_trans p1
              (pres_weaken (ih _ _ _ h3) p1.1 (fun _ _ hx => hx))
            exact p2
          | some max =>
            simp only [cRun] at h
            rcases candThen_ok_cases h with ⟨st1, h1, h2⟩
            rcases candThen_ok_cases h2 with ⟨st3, h3, h4⟩
            cases checkSize_ok (Option.some.inj h4)
            have p1 := pres_weaken (ih _ _ _ h1) (Nat.le_refl _) (fun _ _ hx => hx)
            have p2 := pres_trans p1
              (pres_weaken (ih _ _ _ h3) p1.1 (fun _ _ _ => by simp [patchIdxs]))
            exact p2
    | lits casei chars =>
      cases chars with
      | nil =>
        cases Option.some.inj h |> Except.ok.inj
        exact pres_refl (Nat.le_refl _)
      | cons ch rest =>
        simp only [cRun] at h
        rcases candThen_ok_cases h with ⟨st1, h1, h2⟩
        have p1 : PreservesBelow st.insts.length [] st st1 := by
          cases casei with
          | true => exact pres_weaken (ih _ _ _ h1) (Nat.le_refl _) (fun _ _ hx => hx)
          | false =>
            cases Option.some.inj h1 |> Except.ok.inj
            exact pres_push _ (Nat.le_refl _)
        have p2 := pres_trans p1
          (pres_weaken (ih _ _ _ h2) p1.1 (fun _ _ hx => hx))
        exact p2
    | seq es =>
      cases es with
      | nil =>
        cases Option.some.inj h |> Except.ok.inj
        exact pres_refl (Nat.le_refl _)
      | cons e' rest =>
        simp only [cRun] at h
        rcases candThen_ok_cases h with ⟨st1, h1, h2⟩
        have p1 := pres_weaken (ih _ _ _ h1) (Nat.le_refl _) (fun _ _ hx => hx)
        exact pres_trans p1
          (pres_weaken (ih _ _ _ h2) p1.1 (fun _ _ hx => hx))
    | alts es jmps =>
      cases es with
      | nil =>
        cases Option.some.inj h |> Except.ok.inj
        exact pres_refl (Nat.le_refl _)
      | cons e' rest =>
        cases rest with
        | nil =>
          simp only [cRun] at h
          rcases candThen_ok_cases h with ⟨st1, h1, h2⟩
          have p1 : PreservesBelow st.insts.length jmps st st1 :=
            pres_weaken (ih _ _ _ h1) (Nat.le_refl _)
              (fun k _ _ => by simp [patchIdxs])
          have p2 : PreservesBelow st.insts.length jmps st1 st2 :=
            setJumpFold_pres _ _ _ (cofOpt_ok h2) p1.1
              (fun _ _ hke => hke)
          exact pres_trans p1 p2
        | cons e2 rest2 =>
          simp only [cRun] at h
          rcases candThen_ok_cases h with ⟨st1, h1, h2⟩
          rcases candThen_ok_cases h2 with ⟨st3, h3, h4⟩
          have hsplit := cofOpt_ok h3
          have p1 : PreservesBelow st.insts.length
              (patchIdxs (CReq.alts (e' :: e2 :: rest2) jmps)) st
              st.emptySplit.1 :=
            pres_push _ (Nat.le_refl _)
          have p2 := pres_trans p1
            (pres_weaken (ih _ _ _ h1) p1.1 (fun k _ _ => by simp [patchIdxs]))
          have p3 := pres_trans p2 (pres_push (CInst.Jump 0) p2.1)
          have p4 := pres_trans p3
            (setSplit_pres hsplit p3.1 (fun k hk _ => Nat.ne_of_lt hk))
          have p5 := pres_trans p4
            (pres_weaken (ih _ _ _ h4) p4.1
              (fun k hk hke => by
                simp only [patchIdxs] at hke ⊢
                intro hm
                rcases List.mem_append.1 hm with hm1 | hm2
                · exact hke hm1
                · have hk2 : k = st1.insts.length := by
                    simpa [CState.emptyJump] using hm2
                  have hj := p2.1
                  omega))
          exact p5
    | times e' n =>
      cases n with
      | zero =>
        cases Option.some.inj h |> Except.ok.inj
        exact pres_refl (Nat.le_refl _)
      | succ n =>
        simp only [cRun] at h
        rcases candThen_ok_cases h with ⟨st1, h1, h2⟩
        have p1 := pres_weaken (ih _ _ _ h1) (Nat.le_refl _) (fun _ _ hx => hx)
        exact pres_trans p1
          (pres_weaken (ih _ _ _ h2) p1.1 (fun _ _ hx => hx))
    | optcopies e' n greedy splits starts =>
      cases n with
      | zero =>
        simp only [cRun] at h
        have hp := cofOpt_ok h
        refine patchSplits_pres _ _ _ hp (Nat.le_refl _) ?_
        intro k hk hke p hp2
        have := (List.of_mem_zip hp2).1
        simp only [patchIdxs] at hke
        intro he
        exact hke (he ▸ this)
      | succ n =>
        simp only [cRun] at h
        rcases candThen_ok_cases h with ⟨st1, h1, h2⟩
        have p1 : PreservesBelow st.insts.length
            (patchIdxs (CReq.optcopies e' (n + 1) greedy splits starts)) st
            st.emptySplit.1 :=
          pres_push _ (Nat.le_refl _)
        have p2 := pres_trans p1
          (pres_weaken (ih _ _ _ h1) p1.1 (fun k _ _ => by simp [patchIdxs]))
        have p3 := pres_trans p2
          (pres_weaken (ih _ _ _ h2) p2.1
            (fun k hk hke => by
              simp only [patchIdxs] at hke ⊢
              intro hm
              rcases List.mem_append.1 hm with hm1 | hm2
              · exact hke hm1
              · have hk2 : k = st.emptySplit.2 := by simpa using hm2
                simp only [CState.emptySplit] at hk2
                omega))
        exact p3

/-! ### Size-limit behaviour (claim C3) -/

theorem checkSize_le {isz limit : Nat} {st st2 : CState}
    (h : checkSize isz limit st = Except.ok st2) :
    st2.insts.length * isz ≤ limit := by
  unfold checkSize at h
  split at h
  · cases h
  · cases h
    omega

/-- A successful `Compiler::c` call either ends in a passing size check, or
(for an empty alternation only) emitted nothing at all. -/
theorem cRun_one_ok_bound (isz limit : Nat) (rev : Bool) :
    ∀ fuel ast st st2,
      cRun isz limit rev fuel (CReq.one ast) st = some (Except.ok st2) →
      st2.insts.length * isz ≤ limit ∨ st2.insts = st.insts := by
  intro fuel ast st st2 h
  cases fuel with
  | zero => simp [cRun] at h
  | succ fuel =>
    cases ast with
    | Empty => exact Or.inl (checkSize_le (Option.some.inj h))
    | Literal chars casei =>
      simp only [cRun] at h
      rcases candThen_ok_cases h with ⟨st1, h1, h2⟩
      exact Or.inl (checkSize_le (Option.some.inj h2))
    | AnyChar => exact Or.inl (checkSize_le (Option.some.inj h))
    | AnyCharNoNL => exact Or.inl (checkSize_le (Option.some.inj h))
    | Class cls => exact Or.inl (checkSize_le (Option.some.inj h))
    | StartLine => exact Or.inl (checkSize_le (Option.some.inj h))
    | EndLine => exact Or.inl (checkSize_le (Option.some.inj h))
    | StartText => exact Or.inl (checkSize_le (Option.some.inj h))
    | EndText => exact Or.inl (checkSize_le (Option.some.inj h))
    | WordBoundary => exact Or.inl (checkSize_le (Option.some.inj h))
    | NotWordBoundary => exact Or.inl (checkSize_le (Option.some.inj h))
    | Group e' i name =>
      cases i with
      | none =>
        cases name with
        | none =>
          simp only [cRun] at h
          rcases candThen_ok_cases h with ⟨st1, h1, h2⟩
          exact Or.inl (checkSize_le (Option.some.inj h2))
        | some nm => simp [cRun] at h
      | some i =>
        simp only [cRun] at h
        rcases candThen_ok_cases h with ⟨st1, h1, h2⟩
        exact Or.inl (checkSize_le (Option.some.inj h2))
    | Concat es =>
      simp only [cRun] at h
      rcases candThen_ok_cases h with ⟨st1, h1, h2⟩
      exact Or.inl (checkSize_le (Option.some.inj h2))
    | Alternate es =>
      cases es with
      | nil =>
        cases Option.some.inj h |> Except.ok.inj
        exact Or.inr rfl
      | cons e' rest =>
        simp only [cRun] at h
        rcases candThen_ok_cases h with ⟨st1, h1, h2⟩
        exact Or.inl (checkSize_le (Option.some.inj h2))
    | Repeat e' r greedy =>
      cases r with
      | ZeroOrOne =>
        simp only [cRun] at h
        rcases candThen_ok_cases h with ⟨st1, h1, h2⟩
        rcases candThen_ok_cases h2 with ⟨st3, h3, h4⟩
        exact Or.inl (checkSize_le (Option.some.inj h4))
      | ZeroOrMore =>
        simp only [cRun] at h
        rcases candThen_ok_cases h with ⟨st1, h1, h2⟩
        rcases candThen_ok_cases h2 with ⟨st3, h3, h4⟩
        rcases candThen_ok_cases h4 with ⟨st5, h5, h6⟩
        exact Or.inl (checkSize_le (Option.some.inj h6))
      | OneOrMore =>
        simp only [cRun] at h
        rcases candThen_ok_cases h with ⟨st1, h1, h2⟩
        rcases candThen_ok_cases h2 with ⟨st3, h3, h4⟩
        exact Or.inl (checkSize_le (Option.some.inj h4))
      | Range min max =>
        cases max with
        | none =>
          simp only [cRun] at h
          rcases candThen_ok_cases h with ⟨st1, h1, h2⟩
          rcases candThen_ok_cases h2 with ⟨st3, h3, h4⟩
          exact Or.inl (checkSize_le (Option.some.inj h4))
        | some max =>
          simp only [cRun] at h
          rcases candThen_ok_cases h with ⟨st1, h1, h2⟩
          rcases candThen_ok_cases h2 with ⟨st3, h3, h4⟩
          exact Or.inl (checkSize_le (Option.some.inj h4))

/-- C3, counterexample: compiling the empty AST with
`size_limit = sizeof(Inst)` succeeds (the body check sees one instruction)
but returns a three-instruction program whose total size `3 * sizeof(Inst)`
exceeds the limit, refuting the claim that a successfully returned
program never exceeds the limit (here `sizeof(Inst)` is taken as 1). -/
theorem c3_counterexample :
    compile 1 1 20 Expr.Empty =
      some (Except.ok ([CInst.Save 0, CInst.Save 1, CInst.Match], [none])) ∧
    [CInst.Save 0, CInst.Save 1, CInst.Match].length * 1 > 1 :=
  ⟨by decide, by decide⟩

/-- C3 (amended): compilation either returns a complete instruction
sequence or fails, and every failure is `Error::CompiledTooBig(size_limit)`;
a successfully returned program's total size can exceed the limit, but by
at most `3 * sizeof(Inst)` (the trailing `Save(1)`/`Match` pair, and for an
AST performing no size check also the leading `Save(0)`, are emitted after
the last `check_size`); no partial program is ever returned. -/
theorem c3_compile_size (isz limit fuel : Nat) (ast : Expr)
    (r : Except CErr (List CInst × List (Option String)))
    (hpos : 0 < isz) (h : compile isz limit fuel ast = some r) :
    (∀ e, r = Except.error e → e = CErr.compiledTooBig limit) ∧
    (∀ l ns, r = Except.ok (l, ns) → l.length * isz ≤ limit + 3 * isz) := by
  unfold compile at h
  cases hr : cRun isz limit false fuel (CReq.one ast)
      ⟨[CInst.Save 0], [none]⟩ with
  | none => rw [hr] at h; cases h
  | some x =>
    rw [hr] at h
    cases x with
    | error e =>
      cases Option.some.inj h
      constructor
      · intro e2 he
        cases he
        exact cRun_error isz limit false fuel _ _ _ hr
      · intro l ns he
        cases he
    | ok st =>
      cases Option.some.inj h
      constructor
      · intro e2 he
        cases he
      · intro l ns he
        cases he
        have hlen : (st.insts ++ [CInst.Save 1, CInst.Match]).length =
            st.insts.length + 2 := by simp
        rcases cRun_one_ok_bound isz limit false fuel ast _ _ hr with hb | hb
        · rw [hlen]
          calc (st.insts.length + 2) * isz
              = st.insts.length * isz + 2 * isz := by ring
            _ ≤ limit + 3 * isz :=
              Nat.add_le_add hb (Nat.mul_le_mul_right isz (by norm_num))
        · rw [hlen, hb]
          simp only [List.length_cons, List.length_nil]
          calc (0 + 1 + 2) * isz = 3 * isz := by ring
            _ ≤ limit + 3 * isz := Nat.le_add_left _ _

/-- C3, witness: at `sizeof(Inst) = 1`, `size_limit = 1` and the empty AST,
compilation succeeds and the amended bound holds. -/
theorem c3_witness :
    (match compile 1 1 20 Expr.Empty with
     | some r => ∀ l ns, r = Except.ok (l, ns) → l.length * 1 ≤ 1 + 3 * 1
     | none => False) := by
  cases hr : compile 1 1 20 Expr.Empty with
  | none => exact absurd hr (by decide)
  | some r => exact (c3_compile_size 1 1 20 Expr.Empty r (by decide) hr).2

/-! ### Program layout (claim C4) -/

theorem cRun_head_save {isz limit : Nat} {rev : Bool} {fuel : Nat}
    {ast : Expr} {st2 : CState}
    (h : cRun isz limit rev fuel (CReq.one ast)
      ⟨[CInst.Save 0], [none]⟩ = some (Except.ok st2)) :
    ∃ tail, st2.insts = CInst.Save 0 :: tail := by
  have hp := cRun_pres isz limit rev fuel _ _ _ h
  have hg := hp.2 0 (by norm_num) (by simp [patchIdxs])
  cases hi : st2.insts with
  | nil => rw [hi] at hg; cases hg
  | cons a t =>
    rw [hi] at hg
    cases Option.some.inj hg
    exact ⟨t, rfl⟩

/-- C4: every successfully compiled program, in both forward and reverse
mode, begins with `Save(0)` as instruction 0 and ends with `Save(1)`
immediately followed by `Match` as its last two instructions. -/
theorem c4_first_last (isz limit fuel : Nat) (ast : Expr) :
    (∀ r ns, compile isz limit fuel ast = some (Except.ok (r, ns)) →
      ∃ mid, r = CInst.Save 0 :: mid ++ [CInst.Save 1, CInst.Match]) ∧
    (∀ r, compileReverse isz limit fuel ast = some (Except.ok r) →
      ∃ mid, r = CInst.Save 0 :: mid ++ [CInst.Save 1, CInst.Match]) := by
  constructor
  · intro r ns h
    unfold compile at h
    cases hr : cRun isz limit false fuel (CReq.one ast)
        ⟨[CInst.Save 0], [none]⟩ with
    | none => rw [hr] at h; cases h
    | some x =>
      rw [hr] at h
      cases x with
      | error e => cases h
      | ok st =>
        cases Option.some.inj h
        rcases cRun_head_save hr with ⟨tail, htail⟩
        exact ⟨tail, by rw [htail]⟩
  · intro r h
    unfold compileReverse at h
    cases hr : cRun isz limit true fuel (CReq.one ast)
        ⟨[CInst.Save 0], [none]⟩ with
    | none => rw [hr] at h; cases h
    | some x =>
      rw [hr] at h
      cases x with
      | error e => cases h
      | ok st =>
        cases Option.some.inj h
        rcases cRun_head_save hr with ⟨tail, htail⟩
        exact ⟨tail, by rw [htail]⟩

/-- C4, witness: the layout property instantiated on a compiled literal. -/
theorem c4_witness :
    (compile 1 100 20 (Expr.Literal [97] false) =
      some (Except.ok
        ([CInst.Save 0, CInst.Char 97, CInst.Save 1, CInst.Match],
          ([none] : List (Option String))))) ∧
    ∃ mid, [CInst.Save 0, CInst.Char 97, CInst.Save 1, CInst.Match] =
      CInst.Save 0 :: mid ++ [CInst.Save 1, CInst.Match] :=
  ⟨by decide,
   (c4_first_last 1 100 20 (Expr.Literal [97] false)).1
     [CInst.Save 0, CInst.Char 97, CInst.Save 1, CInst.Match]
     ([none] : List (Option String)) (by decide)⟩

/-! ### Case-insensitive literals (claim C8) -/

/-- The instruction the compiler emits for one codepoint of a
case-insensitive literal: `Compiler::c` recurses into the `Class` arm on
`CharClass::new([c..c]).case_fold()`, which emits a `Char` when the folded
class is a single codepoint and a `Ranges` otherwise. -/
def foldCharInst (ch : Nat) : CInst :=
  classInst (caseFold (canonicalClass [⟨ch, ch⟩]))

theorem cRun_lits_true (isz limit : Nat) (rev : Bool) :
    ∀ fuel chars st st2,
      cRun isz limit rev fuel (CReq.lits true chars) st =
        some (Except.ok st2) →
      st2.insts = st.insts ++ chars.map foldCharInst ∧
      st2.cap_names = st.cap_names := by
  intro fuel
  induction fuel with
  | zero => intro chars st st2 h; simp [cRun] at h
  | succ fuel ih =>
    intro chars st st2 h
    cases chars with
    | nil =>
      cases Option.some.inj h |> Except.ok.inj
      simp
    | cons ch rest =>
      simp only [cRun] at h
      rcases candThen_ok_cases h with ⟨st1, h1, h2⟩
      cases fuel with
      | zero => simp [cRun] at h1
      | succ fuel2 =>
        cases checkSize_ok (Option.some.inj h1)
        rcases ih rest _ _ h2 with ⟨hi, hn⟩
        refine ⟨?_, hn⟩
        rw [hi]
        simp [CState.push, foldCharInst]

/-- C8, counterexample: for the case-insensitive literal `5`, whose
case-fold class is the single codepoint `5`, the compiler emits a `Char`
instruction, not a `Ranges` over the case-fold class as the claim states
(instruction 1 of the compiled program is `Char 53`). -/
theorem c8_counterexample :
    compile 1 100 20 (Expr.Literal [53] true) =
      some (Except.ok
        ([CInst.Save 0, CInst.Char 53, CInst.Save 1, CInst.Match],
          [none])) ∧
    [CInst.Save 0, CInst.Char 53, CInst.Save 1,
        CInst.Match].get? 1 ≠
      some (CInst.Ranges
        (charRangesFromClass (caseFold (canonicalClass [⟨53, 53⟩])))) :=
  ⟨by decide, by decide⟩

/-- C8 (amended): for every case-insensitive literal, the compiler emits,
for each codepoint (in reverse order when `reverse = true`), the
instruction obtained from the case-fold class of that codepoint: a
`Ranges` covering the class when it has more than one codepoint, and a
plain `Char` of the codepoint when the class is that single codepoint. -/
theorem c8_literal_case_insensitive (isz limit : Nat) (rev : Bool)
    (fuel : Nat) (chars : List Nat) (st st2 : CState)
    (h : cRun isz limit rev fuel (CReq.one (Expr.Literal chars true)) st =
      some (Except.ok st2)) :
    st2.insts = st.insts ++
      (if rev then chars.reverse else chars).map foldCharInst := by
  cases fuel with
  | zero => simp [cRun] at h
  | succ fuel =>
    simp only [cRun] at h
    rcases candThen_ok_cases h with ⟨st1, h1, h2⟩
    cases checkSize_ok (Option.some.inj h2)
    exact (cRun_lits_true isz limit rev fuel _ _ _ h1).1

/-- C8, witness: the case-insensitive literal `a` emits one `Ranges`
covering both cases of the letter. -/
theorem c8_witness :
    (cRun 1 100 false 20 (CReq.one (Expr.Literal [97] true))
        ⟨[], [none]⟩ =
      some (Except.ok ⟨[CInst.Ranges [(65, 65), (97, 97)]], [none]⟩)) ∧
    (⟨[CInst.Ranges [(65, 65), (97, 97)]], [none]⟩ : CState).insts =
      (⟨[], [none]⟩ : CState).insts ++
        (if false then [97].reverse else [97]).map foldCharInst :=
  ⟨by decide,
   c8_literal_case_insensitive 1 100 false 20 [97] ⟨[], [none]⟩
     ⟨[CInst.Ranges [(65, 65), (97, 97)]], [none]⟩ (by decide)⟩

/-! ### Bounded repetition (claim C5) -/

/-- The shape of the optional-copy loop of `Repeat Range{min, Some(max)}`
(compile.rs lines 229-234): starting from state `s`, each copy pushes a
`Split(0, 0)` placeholder (recording its index and the address of the copy
start, which is the next instruction) and then compiles `e`; `ps` collects
the (split index, copy start) pairs in order and `send` is the state after
the last copy, before patching. -/
inductive OptChain (isz limit : Nat) (rev : Bool) (e : Expr) :
    CState → List (Nat × Nat) → CState → Prop where
  | nil : ∀ s, OptChain isz limit rev e s [] s
  | cons : ∀ (f : Nat) (s smid send : CState) (ps : List (Nat × Nat)),
      cRun isz limit rev f (CReq.one e) (s.push (CInst.Split 0 0)) =
        some (Except.ok smid) →
      OptChain isz limit rev e smid ps send →
      OptChain isz limit rev e s
        ((s.insts.length, s.insts.length + 1) :: ps) send

/-- The `optcopies` loop produces an `OptChain` followed by the patch pass
over all collected splits, with the patch targets being each split's own
copy start and the single post-tail address. -/
theorem optcopies_spec (isz limit : Nat) (rev : Bool) (e : Expr) (g : Bool) :
    ∀ fuel n splits starts s s2,
      cRun isz limit rev fuel (CReq.optcopies e n g splits starts) s =
        some (Except.ok s2) →
      ∃ ps send,
        OptChain isz limit rev e s ps send ∧
        ps.length = n ∧
        patchSplits (g || rev) send.insts.length
          ((splits ++ ps.map Prod.fst).zip (starts ++ ps.map Prod.snd))
          send = some s2 := by
  intro fuel
  induction fuel with
  | zero => intro n splits starts s s2 h; simp [cRun] at h
  | succ fuel ih =>
    intro n splits starts s s2 h
    cases n with
    | zero =>
      refine ⟨[], s, OptChain.nil s, rfl, ?_⟩
      simpa using cofOpt_ok h
    | succ n =>
      simp only [cRun] at h
      rcases candThen_ok_cases h with ⟨smid, h1, h2⟩
      rcases ih n (splits ++ [s.insts.length])
          (starts ++ [s.insts.length + 1]) smid s2 (by
            have : s.emptySplit.1.insts.length = s.insts.length + 1 := by
              simp [CState.emptySplit]
            simpa [this] using h2)
        with ⟨ps, send, hchain, hlen, hpatch⟩
      refine ⟨(s.insts.length, s.insts.length + 1) :: ps, send,
        OptChain.cons fuel s smid send ps (by
          simpa [CState.emptySplit, CState.push] using h1) hchain,
        by simp [hlen], ?_⟩
      simpa [List.append_assoc] using hpatch
theorem chain_pres {isz limit : Nat} {rev : Bool} {e : Expr}
    {s send : CState} {ps : List (Nat × Nat)}
    (h : OptChain isz limit rev e s ps send) :
    PreservesBelow s.insts.length [] s send := by
  induction h with
  | nil s => exact pres_refl (Nat.le_refl _)
  | cons f s smid send ps h1 hchain ihc =>
    have p1 : PreservesBelow s.insts.length []
        s (s.push (CInst.Split 0 0)) := pres_push _ (Nat.le_refl _)
    have p2 := pres_trans p1
      (pres_weaken (cRun_pres isz limit rev f _ _ _ h1) p1.1
        (fun _ _ hx => hx))
    exact pres_trans p2 (pres_weaken ihc p2.1 (fun _ _ hx => hx))

theorem chain_splits {isz limit : Nat} {rev : Bool} {e : Expr}
    {s send : CState} {ps : List (Nat × Nat)}
    (h : OptChain isz limit rev e s ps send) :
    (∀ p ∈ ps, p.2 = p.1 + 1 ∧ s.insts.length ≤ p.1 ∧
      p.1 < send.insts.length ∧
      send.insts.get? p.1 = some (CInst.Split 0 0)) ∧
    List.Pairwise (fun p q : Nat × Nat => p.1 < q.1) ps := by
  induction h with
  | nil s => exact ⟨by simp, List.Pairwise.nil⟩
  | cons f s smid send ps h1 hchain ihc =>
    have hpush : (s.push (CInst.Split 0 0)).insts.length =
        s.insts.length + 1 := by simp [CState.push]
    have hrun := cRun_pres isz limit rev f _ _ _ h1
    have hmidlen : s.insts.length + 1 ≤ smid.insts.length := by
      have := hrun.1; rw [hpush] at this; exact this
    have hmidget : smid.insts.get? s.insts.length =
        some (CInst.Split 0 0) := by
      have hg := hrun.2 s.insts.length (by rw [hpush]; omega)
        (by simp [patchIdxs])
      rw [hg]
      show (s.insts ++ [CInst.Split 0 0]).get? s.insts.length = _
      exact List.get?_concat_length _ _
    have htail := chain_pres hchain
    have hsendlen : smid.insts.length ≤ send.insts.length := htail.1
    have hsendget : send.insts.get? s.insts.length =
        some (CInst.Split 0 0) := by
      rw [htail.2 s.insts.length (by omega) (List.not_mem_nil _)]
      exact hmidget
    refine ⟨?_, ?_⟩
    · intro p hp
      rcases List.mem_cons.1 hp with hp0 | hpm
      · subst hp0
        exact ⟨rfl, Nat.le_refl _, by omega, hsendget⟩
      · rcases (ihc.1 p hpm) with ⟨ha, hb, hc, hd⟩
        exact ⟨ha, by omega, hc, hd⟩
    · refine List.pairwise_cons.2 ⟨?_, ihc.2⟩
      intro q hq
      have := (ihc.1 q hq).2.1
      show s.insts.length < q.1
      omega

/-- Under the assumption that every successful compilation of `e` emits at
least one instruction, consecutive splits of the chain are at least two
apart and the post-tail address lies strictly past every split plus one. -/
theorem chain_gaps {isz limit : Nat} {rev : Bool} {e : Expr}
    {s send : CState} {ps : List (Nat × Nat)}
    (hpos : ∀ (f : Nat) (t t2 : CState),
      cRun isz limit rev f (CReq.one e) t = some (Except.ok t2) →
      t.insts.length < t2.insts.length)
    (h : OptChain isz limit rev e s ps send) :
    List.Pairwise (fun p q : Nat × Nat => p.1 + 2 ≤ q.1) ps ∧
    ∀ p ∈ ps, p.1 + 2 ≤ send.insts.length := by
  induction h with
  | nil s => exact ⟨List.Pairwise.nil, by simp⟩
  | cons f s smid send ps h1 hchain ihc =>
    have hpush : (s.push (CInst.Split 0 0)).insts.length =
        s.insts.length + 1 := by simp [CState.push]
    have hmid : s.insts.length + 2 ≤ smid.insts.length := by
      have := hpos f _ _ h1; rw [hpush] at this; omega
    have hsendlen : smid.insts.length ≤ send.insts.length :=
      (chain_pres hchain).1
    refine ⟨List.pairwise_cons.2 ⟨?_, ihc.1⟩, ?_⟩
    · intro q hq
      have := ((chain_splits hchain).1 q hq).2.1
      show s.insts.length + 2 ≤ q.1
      omega
    · intro p hp
      rcases List.mem_cons.1 hp with hp0 | hpm
      · subst hp0
        show s.insts.length + 2 ≤ send.insts.length
        omega
      · exact ihc.2 p hpm

theorem setSplit_get_self {st st2 : CState} {i p1 p2 : Nat}
    (h : st.setSplit i p1 p2 = some st2) :
    st2.insts.get? i = some (CInst.Split p1 p2) := by
  unfold CState.setSplit at h
  split at h
  · cases Option.some.inj h
    rename_i g1 g2 heq
    have hlt : i < st.insts.length := by
      by_contra hge
      rw [List.get?_eq_none.2 (by omega)] at heq
      cases heq
    show (st.insts.set i (CInst.Split p1 p2)).get? i = _
    rw [List.get?_eq_getElem?]
    exact List.getElem?_set_eq_of_lt _ hlt
  · cases h

theorem patchSplits_get_ne {gr : Bool} {endp : Nat} :
    ∀ (l : List (Nat × Nat)) (st st2 : CState),
      patchSplits gr endp l st = some st2 →
      ∀ k, (∀ p ∈ l, k ≠ p.1) → st2.insts.get? k = st.insts.get? k := by
  intro l
  induction l with
  | nil =>
    intro st st2 h k _
    cases Option.some.inj h
    rfl
  | cons p rest ih =>
    intro st st2 h k hk
    unfold patchSplits at h
    rcases hsp : (if gr then st.setSplit p.1 p.2 endp
                  else st.setSplit p.1 endp p.2) with _ | sta
    · rw [hsp] at h; cases h
    · rw [hsp] at h
      have hsp2 : st.setSplit p.1 (if gr then p.2 else endp)
          (if gr then endp else p.2) = some sta := by
        cases gr <;> simpa using hsp
      have h1 := setSplit_get hsp2 k (hk p (List.mem_cons_self p rest))
      have h2 := ih sta st2 h k
        (fun q hq => hk q (List.mem_cons_of_mem p hq))
      rw [h2, h1]

theorem patchSplits_get {gr : Bool} {endp : Nat} :
    ∀ (l : List (Nat × Nat)) (st st2 : CState),
      patchSplits gr endp l st = some st2 →
      (List.Pairwise (fun p q : Nat × Nat => p.1 ≠ q.1) l) →
      ∀ p ∈ l, st2.insts.get? p.1 =
        some (if gr then CInst.Split p.2 endp
              else CInst.Split endp p.2) := by
  intro l
  induction l with
  | nil => intro st st2 _ _ p hp; cases hp
  | cons q rest ih =>
    intro st st2 h hnd p hp
    unfold patchSplits at h
    rcases hsp : (if gr then st.setSplit q.1 q.2 endp
                  else st.setSplit q.1 endp q.2) with _ | sta
    · rw [hsp] at h; cases h
    · rw [hsp] at h
      have hsp2 : st.setSplit q.1 (if gr then q.2 else endp)
          (if gr then endp else q.2) = some sta := by
        cases gr <;> simpa using hsp
      rcases List.mem_cons.1 hp with hp0 | hpm
      · subst hp0
        have hval := setSplit_get_self hsp2
        have hkeep := patchSplits_get_ne rest sta st2 h p.1
          (fun r hr => (List.pairwise_cons.1 hnd).1 r hr)
        rw [hkeep, hval]
        cases gr <;> simp
      · exact ih sta st2 h (List.pairwise_cons.1 hnd).2 p hpm

theorem zip_unzip_pairs :
    ∀ ps : List (Nat × Nat),
      (ps.map Prod.fst).zip (ps.map Prod.snd) = ps := by
  intro ps
  induction ps with
  | nil => rfl
  | cons p rest ih => simp [ih]

theorem patchSplits_len {gr : Bool} {endp : Nat} :
    ∀ (l : List (Nat × Nat)) (st st2 : CState),
      patchSplits gr endp l st = some st2 →
      st2.insts.length = st.insts.length := by
  intro l
  induction l with
  | nil => intro st st2 h; cases Option.some.inj h; rfl
  | cons p rest ih =>
    intro st st2 h
    unfold patchSplits at h
    rcases hsp : (if gr then st.setSplit p.1 p.2 endp
                  else st.setSplit p.1 endp p.2) with _ | sta
    · rw [hsp] at h; cases h
    · rw [hsp] at h
      have hsp2 : st.setSplit p.1 (if gr then p.2 else endp)
          (if gr then endp else p.2) = some sta := by
        cases gr <;> simpa using hsp
      rw [ih sta st2 h, setSplit_len hsp2]

/-- C5, counterexample: for `e = Empty` (zero emitted instructions per
copy) and `Range{0, 2}`, the first chain split (instruction 1) has its
first branch pointing at instruction 2, which is the second Split of the
same chain — refuting the claim that no optional Split targets another
Split of the chain. -/
theorem c5_counterexample :
    compile 1 100 20
        (Expr.Repeat Expr.Empty (Repeater.Range 0 (some 2)) true) =
      some (Except.ok
        ([CInst.Save 0, CInst.Split 2 3, CInst.Split 3 3, CInst.Save 1,
          CInst.Match], [none])) ∧
    [CInst.Save 0, CInst.Split 2 3, CInst.Split 3 3, CInst.Save 1,
        CInst.Match].get? 1 = some (CInst.Split 2 3) ∧
    [CInst.Save 0, CInst.Split 2 3, CInst.Split 3 3, CInst.Save 1,
        CInst.Match].get? 2 = some (CInst.Split 3 3) :=
  ⟨by decide, by decide, by decide⟩

/-- C5 (amended): compiling `Repeat{e, Range{min, Some(max)}, greedy}`
first emits `min` unrolled copies of `e` (the `times` loop), then
`max - min` optional copies, each a fresh `Split` placeholder immediately
followed by a copy of `e` (the `OptChain`); after patching, every chain
split holds one branch to its own copy's start (its index plus one) and
the other branch to the single address just past the last optional copy,
start-first when greedy or in reverse mode and end-first otherwise, and
nothing outside the chain splits is modified by the patch pass.  Provided
every successful compilation of `e` emits at least one instruction, no
chain split's target is another split of the chain; for an `e` that emits
nothing the first branch of each split points at the next chain split. -/
theorem c5_repeat_range (isz limit : Nat) (rev : Bool) (fuel : Nat)
    (e : Expr) (g : Bool) (min max : Nat) (st r : CState)
    (h : cRun isz limit rev fuel
      (CReq.one (Expr.Repeat e (Repeater.Range min (some max)) g)) st =
      some (Except.ok r)) :
    ∃ (f : Nat) (s1 send : CState) (ps : List (Nat × Nat)),
      cRun isz limit rev f (CReq.times e min) st = some (Except.ok s1) ∧
      OptChain isz limit rev e s1 ps send ∧
      ps.length = max - min ∧
      r.insts.length = send.insts.length ∧
      (∀ p ∈ ps, p.2 = p.1 + 1) ∧
      (∀ p ∈ ps, r.insts.get? p.1 =
        some (if g || rev then CInst.Split p.2 send.insts.length
              else CInst.Split send.insts.length p.2)) ∧
      (∀ k, (∀ p ∈ ps, k ≠ p.1) → r.insts.get? k = send.insts.get? k) ∧
      ((∀ (f2 : Nat) (t t2 : CState),
          cRun isz limit rev f2 (CReq.one e) t = some (Except.ok t2) →
          t.insts.length < t2.insts.length) →
        ∀ p ∈ ps, ∀ q ∈ ps,
          p.2 ≠ q.1 ∧ send.insts.length ≠ q.1) := by
  cases fuel with
  | zero => simp [cRun] at h
  | succ fuel =>
    simp only [cRun] at h
    rcases candThen_ok_cases h with ⟨s1, h1, h2⟩
    rcases candThen_ok_cases h2 with ⟨s2, h3, h4⟩
    cases checkSize_ok (Option.some.inj h4)
    rcases optcopies_spec isz limit rev e g fuel (max - min) [] [] s1 r h3
      with ⟨ps, send, hchain, hlen, hpatch⟩
    rw [List.nil_append, List.nil_append, zip_unzip_pairs] at hpatch
    have hfacts := chain_splits hchain
    have hpw : List.Pairwise (fun p q : Nat × Nat => p.1 ≠ q.1) ps :=
      hfacts.2.imp (fun hlt => Nat.ne_of_lt hlt)
    refine ⟨fuel, s1, send, ps, h1, hchain, hlen,
      patchSplits_len ps send r hpatch,
      fun p hp => (hfacts.1 p hp).1,
      fun p hp => patchSplits_get ps send r hpatch hpw p hp,
      fun k hk => patchSplits_get_ne ps send r hpatch k hk,
      ?_⟩
    intro hpos p hp q hq
    have hgaps := chain_gaps hpos hchain
    have hsym : ∀ a ∈ ps, ∀ b ∈ ps, a ≠ b →
        a.1 + 2 ≤ b.1 ∨ b.1 + 2 ≤ a.1 := by
      have := hgaps.1.imp
        (fun {a b} hr => (Or.inl hr :
          a.1 + 2 ≤ b.1 ∨ b.1 + 2 ≤ a.1))
      exact fun a ha b hb hab =>
        List.Pairwise.forall (fun a b hr => hr.symm) this ha hb hab
    have hstart := (hfacts.1 p hp).1
    have hqend := hgaps.2 q hq
    constructor
    · by_cases hpq : p = q
      · subst hpq
        rw [hstart]
        omega
      · rcases hsym p hp q hq hpq with hlt | hlt <;> rw [hstart] <;> omega
    · omega

/-- C5, witness: for `a{1,3}` (one mandatory copy, two optional
copies of a single `Char`), the run decomposes into the unroll phase, the
chain and the patch pass as stated. -/
theorem c5_witness :
    (cRun 1 1000 false 30
        (CReq.one (Expr.Repeat (Expr.Literal [97] false)
          (Repeater.Range 1 (some 3)) true)) ⟨[], [none]⟩ =
      some (Except.ok
        ⟨[CInst.Char 97, CInst.Split 2 5, CInst.Char 97, CInst.Split 4 5,
          CInst.Char 97], [none]⟩)) ∧
    (∃ (f : Nat) (s1 send : CState) (ps : List (Nat × Nat)),
      cRun 1 1000 false f (CReq.times (Expr.Literal [97] false) 1)
          ⟨[], [none]⟩ = some (Except.ok s1) ∧
      OptChain 1 1000 false (Expr.Literal [97] false) s1 ps send ∧
      ps.length = 3 - 1 ∧
      (⟨[CInst.Char 97, CInst.Split 2 5, CInst.Char 97, CInst.Split 4 5,
          CInst.Char 97], [none]⟩ : CState).insts.length =
        send.insts.length ∧
      (∀ p ∈ ps, p.2 = p.1 + 1) ∧
      (∀ p ∈ ps,
        (⟨[CInst.Char 97, CInst.Split 2 5, CInst.Char 97, CInst.Split 4 5,
          CInst.Char 97], [none]⟩ : CState).insts.get? p.1 =
        some (if true || false then CInst.Split p.2 send.insts.length
              else CInst.Split send.insts.length p.2)) ∧
      (∀ k, (∀ p ∈ ps, k ≠ p.1) →
        (⟨[CInst.Char 97, CInst.Split 2 5, CInst.Char 97, CInst.Split 4 5,
          CInst.Char 97], [none]⟩ : CState).insts.get? k =
          send.insts.get? k) ∧
      ((∀ (f2 : Nat) (t t2 : CState),
          cRun 1 1000 false f2 (CReq.one (Expr.Literal [97] false)) t =
            some (Except.ok t2) →
          t.insts.length < t2.insts.length) →
        ∀ p ∈ ps, ∀ q ∈ ps,
          p.2 ≠ q.1 ∧ send.insts.length ≠ q.1)) :=
  ⟨by decide,
   c5_repeat_range 1 1000 false 30 (Expr.Literal [97] false) true 1 3
     ⟨[], [none]⟩
     ⟨[CInst.Char 97, CInst.Split 2 5, CInst.Char 97, CInst.Split 4 5,
       CInst.Char 97], [none]⟩ (by decide)⟩

/-! ## NFA engine (`src/nfa.rs`)

The NFA-generation instruction set lives in `inst.rs`, which is not among
the given sources; its shapes are modelled from the spec (section 3) and
from how `nfa.rs` uses them (`inst.c`, `inst.goto`, `inst.goto1/goto2`,
`inst.match_slot`, `inst.capture_slot`, `inst.matches(..)`). -/

/-- Modelled from the spec: the `Save` payload of the NFA instruction set
(`InstSave` of inst.rs): target capture cell `(match_slot, capture_slot)`
and fall-through address. -/
structure InstSave where
  match_slot : Nat
  capture_slot : Nat
  goto : Nat
deriving DecidableEq, Repr

/-- Modelled from the spec: the `Split` payload — try `goto1` first. -/
structure InstSplit where
  goto1 : Nat
  goto2 : Nat
deriving DecidableEq, Repr

/-- Modelled from the spec: the zero-width assertion kinds. -/
inductive LookKind where
  | StartLine
  | EndLine
  | StartText
  | EndText
  | WordBoundary
  | NotWordBoundary
deriving DecidableEq, Repr

/-- Modelled from the spec: the `EmptyLook` payload. -/
structure InstLook where
  kind : LookKind
  goto : Nat
deriving DecidableEq, Repr

/-- Modelled from the spec: the `Char` payload. -/
structure InstChar where
  c : Nat
  goto : Nat
deriving DecidableEq, Repr

/-- Modelled from the spec: the `Ranges` payload. -/
structure InstRanges where
  ranges : List (Nat × Nat)
  goto : Nat
deriving DecidableEq, Repr

/-- Modelled from the spec: the `Bytes` payload (a byte range). -/
structure InstBytes where
  lo : Nat
  hi : Nat
  goto : Nat
deriving DecidableEq, Repr

/-- Modelled from the spec: the NFA-generation instruction set of inst.rs
(spec section 3): `Match` carries the sub-pattern index. -/
inductive Inst where
  | Match (match_slot : Nat)
  | Save (i : InstSave)
  | Split (i : InstSplit)
  | EmptyLook (i : InstLook)
  | Char (i : InstChar)
  | Ranges (i : InstRanges)
  | Bytes (i : InstBytes)
deriving DecidableEq, Repr

/-- Modelled from the spec: word characters for `\b`/`\B`, with
out-of-bounds yielding non-word (spec section 4.4); restricted to ASCII
word characters. -/
def isWordChar : Option Nat → Bool
  | none => false
  | some c =>
    decide ((48 ≤ c ∧ c ≤ 57) ∨ (65 ≤ c ∧ c ≤ 90) ∨
      (97 ≤ c ∧ c ≤ 122) ∨ c = 95)

/-- Modelled from the spec: evaluation of a zero-width assertion against
the previous and next codepoints (spec section 4.4). -/
def InstLook.matches (l : InstLook) (prev next : Option Nat) : Bool :=
  match l.kind with
  | LookKind.StartLine => prev == none || prev == some 10
  | LookKind.EndLine => next == none || next == some 10
  | LookKind.StartText => prev == none
  | LookKind.EndText => next == none
  | LookKind.WordBoundary => isWordChar prev != isWordChar next
  | LookKind.NotWordBoundary => isWordChar prev == isWordChar next

/-- Modelled from the spec: `Ranges` matches a codepoint inside any of its
sorted ranges (EOF matches nothing). -/
def InstRanges.matches (i : InstRanges) (c : Option Nat) : Bool :=
  match c with
  | none => false
  | some c => i.ranges.any fun r => decide (r.1 ≤ c ∧ c ≤ r.2)

/-- Modelled from the spec: `Bytes` matches a byte within its range. -/
def InstBytes.matches (i : InstBytes) (b : Nat) : Bool :=
  decide (i.lo ≤ b ∧ b ≤ i.hi)

/-- Modelled from the spec: the compiled `Program` of program.rs with the
fields the NFA engine and the set plumbing read: the instruction stream,
`anchored_begin`, the literal prefix hints, byte orientation and the
capture geometry (spec sections 3 and 4.5). -/
structure Program where
  insts : List Inst
  anchored_begin : Bool
  prefixes : List (List Nat)
  is_bytes : Bool
  num_sub_patterns : Nat
  num_capture_slots : Nat
deriving DecidableEq, Repr

/-- Modelled from the spec: `Program::alloc_captures` returns one capture
vector per sub-pattern, every slot empty. -/
def Program.alloc_captures (p : Program) : List (List (Option Nat)) :=
  List.replicate p.num_sub_patterns (List.replicate p.num_capture_slots none)

/-! ### Input adapter (`input.rs`, modelled) -/

/-- Modelled from the spec: a position in the input together with the
codepoint at that position (`none` at the end).  Positions index the list
of codepoints. -/
structure InputAt where
  pos : Nat
  c : Option Nat
deriving DecidableEq, Repr

/-- Modelled from the spec: `Input::at` for char input over a codepoint
list. -/
def charAt (text : List Nat) (pos : Nat) : InputAt :=
  ⟨pos, text.get? pos⟩

/-- InputAt::is_beginning. -/
def InputAt.is_beginning (a : InputAt) : Bool := a.pos == 0

/-- InputAt::is_end: no codepoint at this position. -/
def InputAt.is_end (a : InputAt) : Bool := a.c.isNone

/-- InputAt::next_pos: one past the current codepoint (the position itself
at the end of the input). -/
def InputAt.next_pos (a : InputAt) : Nat :=
  if a.c.isSome then a.pos + 1 else a.pos

/-- Modelled from the spec: char input exposes no bytes, so `Bytes`
instructions never match on it. -/
def InputAt.byte (_ : InputAt) : Option Nat := none

/-- Modelled from the spec: `Input::previous_char` at a position. -/
def previousChar (text : List Nat) (a : InputAt) : Option Nat :=
  if a.pos = 0 then none else text.get? (a.pos - 1)

/-- Modelled from the spec: `Input::next_char` at a position. -/
def nextChar (text : List Nat) (a : InputAt) : Option Nat :=
  text.get? a.pos

/-- Modelled from the spec: scan forward for the first position at which
any prefix literal occurs. -/
def prefixScan (text : List Nat) (pres : List (List Nat)) :
    Nat → Nat → Option Nat
  | 0, _ => none
  | fuel + 1, p =>
    if pres.any fun pre => decide ((text.drop p).take pre.length = pre) then
      some p
    else
      prefixScan text pres fuel (p + 1)

/-- Modelled from the spec: `Input::prefix_at`, returning the updated
position or none. -/
def prefixAt (text : List Nat) (pres : List (List Nat)) (a : InputAt) :
    Option InputAt :=
  (prefixScan text pres (text.length + 1 - a.pos) a.pos).map (charAt text)

/-! ### Capture slots (`src/captures.rs`, `CaptureSlotsOwned`) -/

/-- `CaptureSlotsOwned`: one vector of capture slots per sub-pattern. -/
abbrev Caps := List (List (Option Nat))

/-- CaptureSlots::capture (captures.rs line 35): `None` when out of
bounds. -/
def capsCapture (caps : Caps) (ms cs : Nat) : Option (Option Nat) :=
  (caps.get? ms).bind fun row => row.get? cs

/-- CaptureSlots::set_capture (captures.rs line 39).  The source indexes
`self[ms][cs]`; all call sites first read the slot via `capture`, so the
write is in bounds whenever it happens and the out-of-bounds no-op of
`List.set` is never exercised. -/
def capsSetCapture (caps : Caps) (ms cs : Nat) (v : Option Nat) : Caps :=
  caps.set ms ((caps.getD ms []).set cs v)

/-- One row of CaptureSlots::copy_from_match (captures.rs line 19): the
destination row is overwritten elementwise by the source row over their
common length. -/
def capsCopyRow (dst src : List (Option Nat)) : List (Option Nat) :=
  src.take dst.length ++ dst.drop src.length

/-- CaptureSlots::copy_from_match (captures.rs line 19). -/
def capsCopyFromMatch (dst src : Caps) (ms : Nat) : Caps :=
  dst.set ms (capsCopyRow (dst.getD ms []) (src.getD ms []))

/-- CaptureSlots::copy_from (captures.rs line 13): copy every sub-pattern
row up to the common number of matches. -/
def capsCopyFrom (dst src : Caps) : Caps :=
  (List.range (min dst.length src.length)).foldl
    (fun d ms => capsCopyFromMatch d src ms) dst

/-! ### Search sink (`exec.rs`, modelled) and thread sets -/

/-- Modelled from the spec: the search sink of `exec.rs` carries the
capture-storage target, the per-sub-pattern `matches` vector and the
`quit_after_first_match` flag (spec section 4.4).  The extra `recorded`
field is instrumentation: it logs, in order, the sub-pattern indices for
which `matches[i] = true` is executed in `step`, so that "some entry was
set to true during the call" can be stated; it influences nothing. -/
structure Search where
  captures : Caps
  «matches» : List Bool
  quit_after_first_match : Bool
  recorded : List Nat
deriving DecidableEq, Repr

/-- The `Threads` struct of nfa.rs (lines 70-79): an ordered sparse set of
instruction pointers (modelled from the spec as the dense list of a sparse
set), per-state capture storage and the per-state match slot of the most
recent `Save`. -/
structure Threads where
  set : List Nat
  caps : List Caps
  match_slots : List (Option Nat)
deriving DecidableEq, Repr

/-- Threads::resize on a fresh cache (nfa.rs line 410): capture storage
and match slots sized to the instruction count.  The source reuses the
cached arrays when the capacity already fits; every cell read during a run
is written first in that run, so a fresh allocation is observationally the
same. -/
def Threads.fresh (p : Program) : Threads :=
  ⟨[], List.replicate p.insts.length p.alloc_captures,
    List.replicate p.insts.length none⟩

/-- The explicit epsilon-following stack frames of nfa.rs (lines 84-93). -/
inductive FollowEpsilon where
  | IP (ip : Nat)
  | Capture (save : InstSave) (old_match_slot : Option Nat)
      (old_capture_slot : Option Nat)
deriving DecidableEq, Repr

/-- Nfa::add_step (nfa.rs lines 323-378): follow epsilon transitions
iteratively from `ip`, mutating `ip` in place and pushing to the stack
only for `Split` second branches and capture restores; every visited ip is
inserted into `nlist.set`; on reaching a consuming instruction the
in-flight captures and match slot are stored for that ip.  The returned
tuple is (stack, nlist, thread captures, match slot). -/
def addStep (prog : Program) (text : List Nat) :
    Nat → List FollowEpsilon → Threads → Caps → Option Nat → Nat →
    InputAt →
    Option (List FollowEpsilon × Threads × Caps × Option Nat)
  | 0, _, _, _, _, _, _ => none
  | fuel + 1, stack, nlist, tcaps, ms, ip, at_ =>
    if nlist.set.contains ip then
      some (stack, nlist, tcaps, ms)
    else
      let nlist := { nlist with set := nlist.set ++ [ip] }
      match prog.insts.get? ip with
      | none => none
      | some (Inst.EmptyLook inst) =>
        let prev := previousChar text at_
        let next := nextChar text at_
        if inst.matches prev next then
          addStep prog text fuel stack nlist tcaps ms inst.goto at_
        else
          addStep prog text fuel stack nlist tcaps ms ip at_
      | some (Inst.Save inst) =>
        match capsCapture tcaps inst.match_slot inst.capture_slot with
        | some capture_slot =>
          addStep prog text fuel
            (FollowEpsilon.Capture inst ms capture_slot :: stack) nlist
            (capsSetCapture tcaps inst.match_slot inst.capture_slot
              (some at_.pos))
            (some inst.match_slot) inst.goto at_
        | none =>
          addStep prog text fuel stack nlist tcaps
            (some inst.match_slot) inst.goto at_
      | some (Inst.Split inst) =>
        addStep prog text fuel (FollowEpsilon.IP inst.goto2 :: stack) nlist
          tcaps ms inst.goto1 at_
      | some _ =>
        some (stack,
          { nlist with
            caps := nlist.caps.set ip
              (capsCopyFrom (nlist.caps.getD ip []) tcaps),
            match_slots := nlist.match_slots.set ip ms },
          tcaps, ms)

/-- The stack-draining loop of Nfa::add (nfa.rs lines 303-319). -/
def addLoop (prog : Program) (text : List Nat) :
    Nat → List FollowEpsilon → Threads → Caps → Option Nat → InputAt →
    Option (Threads × Caps × Option Nat)
  | 0, _, _, _, _, _ => none
  | fuel + 1, stack, nlist, tcaps, ms, at_ =>
    match stack with
    | [] => some (nlist, tcaps, ms)
    | FollowEpsilon.IP ip :: rest =>
      match addStep prog text (prog.insts.length + 2) rest nlist tcaps ms
          ip at_ with
      | none => none
      | some (stack2, nlist2, tcaps2, ms2) =>
        addLoop prog text fuel stack2 nlist2 tcaps2 ms2 at_
    | FollowEpsilon.Capture save oms ocs :: rest =>
      addLoop prog text fuel rest nlist
        (capsSetCapture tcaps save.match_slot save.capture_slot ocs) oms
        at_

/-- Nfa::add (nfa.rs lines 295-320): push the starting ip and drain the
stack. -/
def Nfa.add (prog : Program) (text : List Nat) (nlist : Threads)
    (tcaps : Caps) (ms : Option Nat) (ip : Nat) (at_ : InputAt) :
    Option (Threads × Caps × Option Nat) :=
  addLoop prog text ((prog.insts.length + 2) * (prog.insts.length + 2) + 2)
    [FollowEpsilon.IP ip] nlist tcaps ms at_

/-- Nfa::step (nfa.rs lines 248-287): dispatch on the instruction at `ip`
against the character at the current position.  On `Match(i)` the thread
captures are copied into the sink for sub-pattern `i`, `matches[i]` is set
(an out-of-bounds index panics, modelled as `none`) and the event is
logged; consuming instructions that match add their goto to `nlist` at the
next position; epsilon instructions do nothing. -/
def Nfa.step (prog : Program) (text : List Nat) (search : Search)
    (nlist : Threads) (tcaps : Caps) (ms : Option Nat) (ip : Nat)
    (at_ at_next : InputAt) :
    Option (Bool × Search × Threads × Caps × Option Nat) :=
  match prog.insts.get? ip with
  | none => none
  | some (Inst.Match match_slot) =>
    if match_slot < search.«matches».length then
      some (true,
        { search with
          captures := capsCopyFromMatch search.captures tcaps match_slot,
          «matches» := search.«matches».set match_slot true,
          recorded := search.recorded ++ [match_slot] },
        nlist, tcaps, ms)
    else none
  | some (Inst.Char inst) =>
    if at_.c = some inst.c then
      match Nfa.add prog text nlist tcaps ms inst.goto at_next with
      | none => none
      | some (nlist2, tcaps2, ms2) => some (false, search, nlist2, tcaps2, ms2)
    else some (false, search, nlist, tcaps, ms)
  | some (Inst.Ranges inst) =>
    if inst.matches at_.c then
      match Nfa.add prog text nlist tcaps ms inst.goto at_next with
      | none => none
      | some (nlist2, tcaps2, ms2) => some (false, search, nlist2, tcaps2, ms2)
    else some (false, search, nlist, tcaps, ms)
  | some (Inst.Bytes inst) =>
    match at_.byte with
    | some b =>
      if inst.matches b then
        match Nfa.add prog text nlist tcaps ms inst.goto at_next with
        | none => none
        | some (nlist2, tcaps2, ms2) =>
          some (false, search, nlist2, tcaps2, ms2)
      else some (false, search, nlist, tcaps, ms)
    | none => some (false, search, nlist, tcaps, ms)
  | some (Inst.EmptyLook _) => some (false, search, nlist, tcaps, ms)
  | some (Inst.Save _) => some (false, search, nlist, tcaps, ms)
  | some (Inst.Split _) => some (false, search, nlist, tcaps, ms)

/-- The two exits of the per-thread loop of Nfa::exec_: `quit` is
`break 'LOOP` (return immediately), `fall` is normal completion of the
position, including the single-pattern early `break`. -/
inductive LoopExit where
  | quit
  | fall
deriving DecidableEq, Repr

instance : DecidableEq (Caps × Option Nat) := inferInstance

instance : DecidableEq (Threads × Caps × Option Nat) := inferInstance

instance : DecidableEq (Search × Threads × Caps × Option Nat) :=
  inferInstance

instance : DecidableEq (Bool × Search × Threads × Caps × Option Nat) :=
  inferInstance

instance : DecidableEq (List Nat × Bool) := inferInstance

instance : DecidableEq (Search × List Nat × Bool) := inferInstance

instance : DecidableEq (Threads × Search × List Nat × Bool) := inferInstance

instance : DecidableEq (Threads × Threads × Search × List Nat × Bool) :=
  inferInstance

instance :
    DecidableEq (LoopExit × Threads × Threads × Search × List Nat × Bool) :=
  inferInstance

instance : DecidableEq (Search × Bool) := inferInstance

instance : DecidableEq (Threads × Search × Bool) := inferInstance

instance : DecidableEq (Threads × Threads × Search × Bool) := inferInstance

instance : DecidableEq (LoopExit × Threads × Threads × Search × Bool) :=
  inferInstance

instance : DecidableEq (Bool × Search) := inferInstance

/-- The per-thread loop at one input position (nfa.rs lines 184-225):
threads whose match slot was already seen at this position are skipped;
stepping a thread that reports a match records the thread's match slot
(`unwrap` panics when it is `None`, modelled as `none`), quits outright
under `quit_after_first_match`, breaks out of the loop when the sink
carries at most one pattern, and continues otherwise. -/
def threadLoop (prog : Program) (text : List Nat) (at_ at_next : InputAt) :
    List Nat → Threads → Threads → Search → List Nat → Bool →
    Option (LoopExit × Threads × Threads × Search × List Nat × Bool)
  | [], clist, nlist, search, seen, matched =>
    some (LoopExit.fall, clist, nlist, search, seen, matched)
  | ip :: rest, clist, nlist, search, seen, matched =>
    match clist.match_slots.get? ip with
    | none => none
    | some ms0 =>
      if (match ms0 with
          | some s => seen.contains s
          | none => false) then
        threadLoop prog text at_ at_next rest clist nlist search seen
          matched
      else
        match clist.caps.get? ip with
        | none => none
        | some tcaps =>
          match Nfa.step prog text search nlist tcaps ms0 ip at_ at_next with
          | none => none
          | some (m, search2, nlist2, tcaps2, _) =>
            if m then
              match ms0 with
              | none => none
              | some s0 =>
                if search2.quit_after_first_match then
                  some (LoopExit.quit,
                    { clist with caps := clist.caps.set ip tcaps2 }, nlist2,
                    search2, seen ++ [s0], true)
                else if search2.«matches».length > 1 then
                  threadLoop prog text at_ at_next rest
                    { clist with caps := clist.caps.set ip tcaps2 } nlist2
                    search2 (seen ++ [s0]) true
                else
                  some (LoopExit.fall,
                    { clist with caps := clist.caps.set ip tcaps2 }, nlist2,
                    search2, seen ++ [s0], true)
            else
              threadLoop prog text at_ at_next rest
                { clist with caps := clist.caps.set ip tcaps2 } nlist2
                search2 seen matched

/-- One input position of Nfa::exec_ (nfa.rs lines 174-225): seed a thread
at instruction 0 when the thread set is empty or the program is unanchored
and nothing matched yet (the implicit leading lazy dot-star), clear
`seen_matches`, then run the per-thread loop. -/
def positionStep (prog : Program) (text : List Nat) (clist nlist : Threads)
    (search : Search) (matched : Bool) (at_ : InputAt) :
    Option (LoopExit × Threads × Threads × Search × Bool) :=
  match (if clist.set.isEmpty || (!prog.anchored_begin && !matched) then
          match Nfa.add prog text clist search.captures none 0 at_ with
          | none => none
          | some (clist2, caps2, _) =>
            some (clist2, { search with captures := caps2 })
        else some (clist, search)) with
  | none => none
  | some (clist2, search2) =>
    match threadLoop prog text at_ (charAt text at_.next_pos) clist2.set
        clist2 nlist search2 [] matched with
    | none => none
    | some (ex, clist3, nlist3, search3, _, matched3) =>
      some (ex, clist3, nlist3, search3, matched3)

/-- The main loop of Nfa::exec_ (nfa.rs lines 145-232): when the current
thread set is empty, bail out on a previous match or a missed anchor, or
skip ahead to the next literal-prefix occurrence (bailing out when there
is none); process the position; on `quit` return immediately; otherwise
stop at the end of the input or swap the thread sets, clear the new
`nlist` and advance. -/
def outerLoop (prog : Program) (text : List Nat) :
    Nat → Threads → Threads → Search → Bool → InputAt →
    Option (Bool × Search)
  | 0, _, _, _, _, _ => none
  | fuel + 1, clist, nlist, search, matched, at_ =>
    match (if clist.set.isEmpty then
            if matched || (!at_.is_beginning && prog.anchored_begin) then
              none
            else if !prog.prefixes.isEmpty then
              prefixAt text prog.prefixes at_
            else some at_
          else some at_) with
    | none => some (matched, search)
    | some at2 =>
      match positionStep prog text clist nlist search matched at2 with
      | none => none
      | some (LoopExit.quit, _, _, search2, matched2) =>
        some (matched2, search2)
      | some (LoopExit.fall, clist2, nlist2, search2, matched2) =>
        if at2.is_end then some (matched2, search2)
        else
          outerLoop prog text fuel nlist2 { clist2 with set := [] } search2
            matched2 (charAt text at2.next_pos)

/-- Nfa::exec (nfa.rs lines 113-133): resize the cached thread sets to the
program, position the input at `start` and run `exec_` with no match
recorded yet. -/
def Nfa.exec (prog : Program) (text : List Nat) (start : Nat)
    (search : Search) : Option (Bool × Search) :=
  outerLoop prog text (text.length + 2) (Threads.fresh prog)
    (Threads.fresh prog) search false (charAt text start)

example :
    Nfa.exec
      ⟨[Inst.Save ⟨0, 0, 1⟩, Inst.Char ⟨97, 2⟩, Inst.Save ⟨0, 1, 3⟩,
        Inst.Match 0], false, [], false, 1, 2⟩
      [98, 97] 0 ⟨[[none, none]], [false], false, []⟩ =
    some (true,
      ⟨[[some 1, some 2]], [true], false, [0]⟩) := by decide

example :
    Nfa.exec
      ⟨[Inst.Save ⟨0, 0, 1⟩, Inst.Char ⟨97, 2⟩, Inst.Save ⟨0, 1, 3⟩,
        Inst.Match 0], false, [], false, 1, 2⟩
      [98, 99] 0 ⟨[[none, none]], [false], false, []⟩ =
    some (false,
      ⟨[[none, none]], [false], false, []⟩) := by decide

/-! ### Claim C1: the result is true iff a match was recorded -/

/-- What one `step` does to the sink: a `true` result comes exactly from a
`Match` instruction and is accompanied by setting `matches[j]` (and
logging `j`); a `false` result leaves the sink untouched. -/
theorem step_effects {prog : Program} {text : List Nat} {search : Search}
    {nlist : Threads} {tcaps : Caps} {ms : Option Nat} {ip : Nat}
    {at_ at_next : InputAt} {m : Bool} {search2 : Search}
    {nlist2 : Threads} {tcaps2 : Caps} {ms2 : Option Nat}
    (h : Nfa.step prog text search nlist tcaps ms ip at_ at_next =
      some (m, search2, nlist2, tcaps2, ms2)) :
    (m = true → ∃ j, prog.insts.get? ip = some (Inst.Match j) ∧
      j < search.«matches».length ∧
      search2.recorded = search.recorded ++ [j] ∧
      search2.«matches» = search.«matches».set j true ∧
      search2.quit_after_first_match = search.quit_after_first_match) ∧
    (m = false → search2 = search) := by
  unfold Nfa.step at h
  split at h
  · cases h
  · rename_i j heq
    split at h
    · rename_i hlt
      rcases Option.some.inj h with h2
      cases h2
      exact ⟨fun _ => ⟨j, heq, hlt, rfl, rfl, rfl⟩, fun hf => nomatch hf⟩
    · cases h
  · rename_i inst heq
    split at h
    · split at h
      · cases h
      · rcases Option.some.inj h with h2
        cases h2
        exact ⟨(fun ht => nomatch ht), fun _ => rfl⟩
    · rcases Option.some.inj h with h2
      cases h2
      exact ⟨(fun ht => nomatch ht), fun _ => rfl⟩
  · rename_i inst heq
    split at h
    · split at h
      · cases h
      · rcases Option.some.inj h with h2
        cases h2
        exact ⟨(fun ht => nomatch ht), fun _ => rfl⟩
    · rcases Option.some.inj h with h2
      cases h2
      exact ⟨(fun ht => nomatch ht), fun _ => rfl⟩
  · rename_i inst heq
    split at h
    · rename_i b hb
      split at h
      · split at h
        · cases h
        · rcases Option.some.inj h with h2
          cases h2
          exact ⟨(fun ht => nomatch ht), fun _ => rfl⟩
      · rcases Option.some.inj h with h2
        cases h2
        exact ⟨(fun ht => nomatch ht), fun _ => rfl⟩
    · rcases Option.some.inj h with h2
      cases h2
      exact ⟨(fun ht => nomatch ht), fun _ => rfl⟩
  · rcases Option.some.inj h with h2
    cases h2
    exact ⟨(fun ht => nomatch ht), fun _ => rfl⟩
  · rcases Option.some.inj h with h2
    cases h2
    exact ⟨(fun ht => nomatch ht), fun _ => rfl⟩
  · rcases Option.some.inj h with h2
    cases h2
    exact ⟨(fun ht => nomatch ht), fun _ => rfl⟩

/-- Across the per-thread loop, `matched` becomes true exactly when new
match events were logged, and the quit flag never changes. -/
theorem threadLoop_effects {prog : Program} {text : List Nat}
    {at_ at_next : InputAt} :
    ∀ (idxs : List Nat) (clist nlist : Threads) (search : Search)
      (seen : List Nat) (matched : Bool) (ex : LoopExit)
      (c2 n2 : Threads) (s2 : Search) (seen2 : List Nat) (m2 : Bool),
      threadLoop prog text at_ at_next idxs clist nlist search seen
        matched = some (ex, c2, n2, s2, seen2, m2) →
      ∃ t, s2.recorded = search.recorded ++ t ∧
        m2 = (matched || !t.isEmpty) ∧
        s2.quit_after_first_match = search.quit_after_first_match := by
  intro idxs
  induction idxs with
  | nil =>
    intro clist nlist search seen matched ex c2 n2 s2 seen2 m2 h
    rcases Option.some.inj h with h2
    cases h2
    exact ⟨[], by simp, by simp, rfl⟩
  | cons ip rest ih =>
    intro clist nlist search seen matched ex c2 n2 s2 seen2 m2 h
    unfold threadLoop at h
    split at h
    · cases h
    · rename_i ms0 hms
      split at h
      · exact ih _ _ _ _ _ _ _ _ _ _ _ h
      · split at h
        · cases h
        · rename_i tcaps hcaps
          split at h
          · cases h
          · rename_i m search3 nlist3 tcaps3 ms3 hstep
            have heff := step_effects hstep
            split at h
            · rename_i hm
              split at h
              · cases h
              · rename_i s0 hs0
                rcases heff.1 hm with ⟨j, _, _, hrec, _, hquit⟩
                split at h
                · rcases Option.some.inj h with h2
                  cases h2
                  exact ⟨[j], hrec, by simp, hquit⟩
                · split at h
                  · rcases ih _ _ _ _ _ _ _ _ _ _ _ h
                      with ⟨t, ht1, ht2, ht3⟩
                    refine ⟨j :: t, ?_, ?_, ht3.trans hquit⟩
                    · rw [ht1, hrec]; simp
                    · rw [ht2]; simp
                  · rcases Option.some.inj h with h2
                    cases h2
                    exact ⟨[j], hrec, by simp, hquit⟩
            · rename_i hm
              have hmf : m = false := by
                revert hm; cases m <;> simp
              have hs3 : search3 = search := heff.2 hmf
              subst hs3
              exact ih _ _ _ _ _ _ _ _ _ _ _ h

/-- Across one input position, including the seed (which only touches the
sink's captures). -/
theorem positionStep_effects {prog : Program} {text : List Nat}
    {clist nlist : Threads} {search : Search} {matched : Bool}
    {at_ : InputAt} {ex : LoopExit} {c2 n2 : Threads} {s2 : Search}
    {m2 : Bool}
    (h : positionStep prog text clist nlist search matched at_ =
      some (ex, c2, n2, s2, m2)) :
    ∃ t, s2.recorded = search.recorded ++ t ∧
      m2 = (matched || !t.isEmpty) := by
  unfold positionStep at h
  split at h
  · cases h
  · rename_i pair clist2 search2 hseed
    have hsame : search2.recorded = search.recorded := by
      split at hseed
      · split at hseed
        · cases hseed
        · rcases Option.some.inj hseed with h2
          cases h2
          rfl
      · rcases Option.some.inj hseed with h2
        cases h2
        rfl
    split at h
    · cases h
    · rename_i ex3 c3 n3 s3 seen3 m3 hloop
      rcases Option.some.inj h with h2
      cases h2
      rcases threadLoop_effects _ _ _ _ _ _ _ _ _ _ _ _ hloop
        with ⟨t, ht1, ht2, _⟩
      exact ⟨t, by rw [ht1, hsame], ht2⟩

/-- Across the whole main loop. -/
theorem outerLoop_effects {prog : Program} {text : List Nat} :
    ∀ (fuel : Nat) (clist nlist : Threads) (search : Search)
      (matched : Bool) (at_ : InputAt) (r : Bool) (s2 : Search),
      outerLoop prog text fuel clist nlist search matched at_ =
        some (r, s2) →
      ∃ t, s2.recorded = search.recorded ++ t ∧
        r = (matched || !t.isEmpty) := by
  intro fuel
  induction fuel with
  | zero => intro clist nlist search matched at_ r s2 h; simp [outerLoop] at h
  | succ fuel ih =>
    intro clist nlist search matched at_ r s2 h
    unfold outerLoop at h
    split at h
    · rcases Option.some.inj h with h2
      cases h2
      exact ⟨[], by simp, by simp⟩
    · rename_i at2 hsel
      split at h
      · cases h
      · rename_i c3 n3 s3 m3 hpos
        rcases Option.some.inj h with h2
        cases h2
        exact positionStep_effects hpos
      · rename_i c3 n3 s3 m3 hpos
        split at h
        · rcases Option.some.inj h with h2
          cases h2
          exact positionStep_effects hpos
        · rcases positionStep_effects hpos with ⟨t1, ht1, ht2⟩
          rcases ih _ _ _ _ _ _ _ h with ⟨t2, hu1, hu2⟩
          refine ⟨t1 ++ t2, ?_, ?_⟩
          · rw [hu1, ht1, List.append_assoc]
          · rw [hu2, ht2]
            cases matched <;> cases t1 <;> cases t2 <;> simp

/-- C1: `Nfa::exec` returns true iff at least one sub-pattern matched
during the call — iff some entry of the sink's `matches` vector was set to
true, these assignments being exactly the events logged in the sink's
`recorded` instrumentation field by `step` (see `Nfa.step`, `Match` arm,
and `step_effects`). -/
theorem c1_exec_true_iff_recorded (prog : Program) (text : List Nat)
    (start : Nat) (search : Search) (r : Bool) (s2 : Search)
    (h : Nfa.exec prog text start search = some (r, s2)) :
    r = true ↔ search.recorded ≠ s2.recorded := by
  rcases outerLoop_effects _ _ _ _ _ _ _ _ h with ⟨t, ht1, ht2⟩
  rw [ht1, ht2]
  cases t with
  | nil => simp
  | cons x xs =>
    simp only [List.isEmpty_cons, Bool.not_false, Bool.or_true, true_iff]
    intro hc
    have : search.recorded.length = (search.recorded ++ x :: xs).length :=
      congrArg List.length hc
    simp at this

/-- C1, witness: a concrete run that matches logs an event. -/
theorem c1_witness :
    (match Nfa.exec
        ⟨[Inst.Save ⟨0, 0, 1⟩, Inst.Char ⟨97, 2⟩, Inst.Save ⟨0, 1, 3⟩,
          Inst.Match 0], false, [], false, 1, 2⟩
        [98, 97] 0 ⟨[[none, none]], [false], false, []⟩ with
     | some rs => (rs.1 = true ↔
        ([] : List Nat) ≠ rs.2.recorded)
     | none => False) := by
  cases hr : Nfa.exec
      ⟨[Inst.Save ⟨0, 0, 1⟩, Inst.Char ⟨97, 2⟩, Inst.Save ⟨0, 1, 3⟩,
        Inst.Match 0], false, [], false, 1, 2⟩
      [98, 97] 0 ⟨[[none, none]], [false], false, []⟩ with
  | none => exact absurd hr (by decide)
  | some rs =>
    exact c1_exec_true_iff_recorded _ _ _ _ rs.1 rs.2 (by rw [hr])

/-! ### Claim C2: control flow after a match in the per-thread loop -/

/-- C2: when stepping a thread yields a match (`step` returns true) in the
per-thread loop: under `quit_after_first_match` the loop quits immediately
and `exec_` returns at once with the current `matched` value (true); with
a single-pattern sink (`matches` of length 1) the remaining threads of the
current position are skipped but the main loop still advances to the next
input position; with a multi-pattern sink the remaining threads are
processed.  Conjuncts (4) and (5) are the main-loop side: a `quit`
position outcome returns immediately, and a `fall` outcome at a non-final
position advances to `at.next_pos` with the thread sets swapped and the
new `nlist` cleared. -/
theorem c2_match_control (prog : Program) (text : List Nat)
    (at_ at_next : InputAt) (ip s0 : Nat) (rest : List Nat)
    (clist nlist : Threads) (search : Search) (seen : List Nat)
    (matched : Bool) (tcaps : Caps) (search1 : Search) (nlist1 : Threads)
    (tcaps1 : Caps) (ms1 : Option Nat)
    (hms : clist.match_slots.get? ip = some (some s0))
    (hseen : seen.contains s0 = false)
    (hcaps : clist.caps.get? ip = some tcaps)
    (hstep : Nfa.step prog text search nlist tcaps (some s0) ip at_
      at_next = some (true, search1, nlist1, tcaps1, ms1)) :
    (search1.quit_after_first_match = true →
      threadLoop prog text at_ at_next (ip :: rest) clist nlist search
          seen matched =
        some (LoopExit.quit,
          { clist with caps := clist.caps.set ip tcaps1 }, nlist1, search1,
          seen ++ [s0], true)) ∧
    (search1.quit_after_first_match = false →
      search1.«matches».length = 1 →
      threadLoop prog text at_ at_next (ip :: rest) clist nlist search
          seen matched =
        some (LoopExit.fall,
          { clist with caps := clist.caps.set ip tcaps1 }, nlist1, search1,
          seen ++ [s0], true)) ∧
    (search1.quit_after_first_match = false →
      1 < search1.«matches».length →
      threadLoop prog text at_ at_next (ip :: rest) clist nlist search
          seen matched =
        threadLoop prog text at_ at_next rest
          { clist with caps := clist.caps.set ip tcaps1 } nlist1 search1
          (seen ++ [s0]) true) ∧
    (∀ (fuel : Nat) (cl nl : Threads) (se : Search) (ma : Bool)
        (a2 : InputAt) (c3 n3 : Threads) (s3 : Search) (m3 : Bool),
      cl.set.isEmpty = false →
      positionStep prog text cl nl se ma a2 =
        some (LoopExit.quit, c3, n3, s3, m3) →
      outerLoop prog text (fuel + 1) cl nl se ma a2 = some (m3, s3)) ∧
    (∀ (fuel : Nat) (cl nl : Threads) (se : Search) (ma : Bool)
        (a2 : InputAt) (c3 n3 : Threads) (s3 : Search) (m3 : Bool),
      cl.set.isEmpty = false →
      a2.is_end = false →
      positionStep prog text cl nl se ma a2 =
        some (LoopExit.fall, c3, n3, s3, m3) →
      outerLoop prog text (fuel + 1) cl nl se ma a2 =
        outerLoop prog text fuel n3 { c3 with set := [] } s3 m3
          (charAt text a2.next_pos)) := by
  refine ⟨?_, ?_, ?_, ?_, ?_⟩
  · intro hq
    simp only [threadLoop, hms, hseen, hcaps, hstep, hq]
    simp
  · intro hq hlen
    simp only [threadLoop, hms, hseen, hcaps, hstep, hq, hlen]
    simp
  · intro hq hlen
    have hgt : (search1.«matches».length > 1) = True := by
      simp [hlen]
    simp only [threadLoop, hms, hseen, hcaps, hstep, hq, hgt]
    simp
  · intro fuel cl nl se ma a2 c3 n3 s3 m3 hempty hpos
    unfold outerLoop
    split
    · rename_i hsel
      simp [hempty] at hsel
    · rename_i at2 hsel
      simp [hempty] at hsel
      cases hsel
      rw [hpos]
  · intro fuel cl nl se ma a2 c3 n3 s3 m3 hempty hend hpos
    conv_lhs => unfold outerLoop
    split
    · rename_i hsel
      simp [hempty] at hsel
    · rename_i at2 hsel
      simp [hempty] at hsel
      cases hsel
      rw [hpos]
      simp [hend]

/-- C2, witness: a one-instruction `Match` program in single-pattern mode
breaks out of the per-thread loop with the match recorded. -/
theorem c2_witness :
    threadLoop
        ⟨[Inst.Match 0], false, [], false, 1, 2⟩ [] ⟨0, none⟩ ⟨0, none⟩
        [0] ⟨[0], [[[none, none]]], [some 0]⟩
        (Threads.fresh ⟨[Inst.Match 0], false, [], false, 1, 2⟩)
        ⟨[[none, none]], [false], false, []⟩ [] false =
      some (LoopExit.fall,
        ⟨[0], [[[none, none]]], [some 0]⟩,
        Threads.fresh ⟨[Inst.Match 0], false, [], false, 1, 2⟩,
        ⟨[[none, none]], [true], false, [0]⟩, [0], true) := by
  have h := (c2_match_control ⟨[Inst.Match 0], false, [], false, 1, 2⟩ []
    ⟨0, none⟩ ⟨0, none⟩ 0 0 [] ⟨[0], [[[none, none]]], [some 0]⟩
    (Threads.fresh ⟨[Inst.Match 0], false, [], false, 1, 2⟩)
    ⟨[[none, none]], [false], false, []⟩ [] false [[none, none]]
    ⟨[[none, none]], [true], false, [0]⟩
    (Threads.fresh ⟨[Inst.Match 0], false, [], false, 1, 2⟩)
    [[none, none]] (some 0)
    (by decide) (by decide) (by decide) (by decide)).2.1 rfl rfl
  simpa using h

/-! ### Claim C6: per-position dedup of recorded sub-patterns -/

/-- C6: within the processing of one input position, a thread whose match
slot is already in `seen_matches` is skipped outright, and — when the
program's `Match` instructions agree with the thread match slots, as the
compiler guarantees for well-formed programs — the sub-patterns recorded
at this position are pairwise distinct and disjoint from the slots already
seen, i.e. each sub-pattern is recorded at most once per position. -/
theorem c6_seen_dedup (prog : Program) (text : List Nat)
    (at_ at_next : InputAt) :
    (∀ (ip : Nat) (rest : List Nat) (clist nlist : Threads)
        (search : Search) (seen : List Nat) (matched : Bool) (s : Nat),
      clist.match_slots.get? ip = some (some s) →
      seen.contains s = true →
      threadLoop prog text at_ at_next (ip :: rest) clist nlist search
          seen matched =
        threadLoop prog text at_ at_next rest clist nlist search seen
          matched) ∧
    (∀ (idxs : List Nat) (clist nlist : Threads) (search : Search)
        (seen : List Nat) (matched : Bool) (ex : LoopExit)
        (c2 n2 : Threads) (s2 : Search) (seen2 : List Nat) (m2 : Bool),
      (∀ i ∈ idxs, ∀ j, prog.insts.get? i = some (Inst.Match j) →
        clist.match_slots.get? i = some (some j)) →
      threadLoop prog text at_ at_next idxs clist nlist search seen
          matched = some (ex, c2, n2, s2, seen2, m2) →
      ∃ t, s2.recorded = search.recorded ++ t ∧ seen2 = seen ++ t ∧
        t.Nodup ∧ ∀ x ∈ t, seen.contains x = false) := by
  constructor
  · intro ip rest clist nlist search seen matched s hms hseen
    simp only [threadLoop, hms, hseen]
    simp
  · intro idxs
    induction idxs with
    | nil =>
      intro clist nlist search seen matched ex c2 n2 s2 seen2 m2 _ h
      rcases Option.some.inj h with h2
      cases h2
      exact ⟨[], by simp, by simp, List.Pairwise.nil, by simp⟩
    | cons ip rest ih =>
      intro clist nlist search seen matched ex c2 n2 s2 seen2 m2 hagree h
      unfold threadLoop at h
      split at h
      · cases h
      · rename_i ms0 hms
        split at h
        · exact ih _ _ _ _ _ _ _ _ _ _ _
            (fun i hi => hagree i (List.mem_cons_of_mem ip hi)) h
        · rename_i hskip
          split at h
          · cases h
          · rename_i tcaps hcaps
            split at h
            · cases h
            · rename_i m search3 nlist3 tcaps3 ms3 hstep
              have heff := step_effects hstep
              split at h
              · rename_i hm
                split at h
                · cases h
                · rename_i s0
                  rcases heff.1 hm with ⟨j, hinst, _, hrec, _, _⟩
                  have hj := hagree ip (List.mem_cons_self ip rest) j hinst
                  have hsj : s0 = j :=
                    (Option.some.inj (Option.some.inj (hj.symm.trans hms))).symm
                  rw [← hsj] at hrec
                  have hns : seen.contains s0 = false := by simpa using hskip
                  split at h
                  · rcases Option.some.inj h with h2
                    cases h2
                    exact ⟨[s0], hrec, rfl, by simp, fun x hx => by
                      rw [List.mem_singleton.1 hx]; exact hns⟩
                  · split at h
                    · rcases ih
                        { clist with caps := clist.caps.set ip tcaps3 }
                        _ _ _ _ _ _ _ _ _ _
                        (fun i hi => hagree i (List.mem_cons_of_mem ip hi))
                        h with ⟨t, ht1, ht2, ht3, ht4⟩
                      refine ⟨s0 :: t, ?_, ?_, ?_, ?_⟩
                      · rw [ht1, hrec]; simp
                      · rw [ht2]; simp
                      · refine List.nodup_cons.2 ⟨?_, ht3⟩
                        intro hmem
                        have hxn : s0 ∉ seen ++ [s0] := by
                          simpa using ht4 s0 hmem
                        exact hxn
                          (List.mem_append_right _ (List.mem_singleton_self _))
                      · intro x hx
                        rcases List.mem_cons.1 hx with hx0 | hxm
                        · rw [hx0]; exact hns
                        · have hxn : x ∉ seen ++ [s0] := by
                            simpa using ht4 x hxm
                          have hxs : x ∉ seen :=
                            fun hxs => hxn (List.mem_append_left _ hxs)
                          simpa using hxs
                    · rcases Option.some.inj h with h2
                      cases h2
                      exact ⟨[s0], hrec, rfl, by simp, fun x hx => by
                        rw [List.mem_singleton.1 hx]; exact hns⟩
              · rename_i hm
                have hmf : m = false := by
                  revert hm; cases m <;> simp
                have hs3 : search3 = search := heff.2 hmf
                subst hs3
                exact ih { clist with caps := clist.caps.set ip tcaps3 }
                  _ _ _ _ _ _ _ _ _ _
                  (fun i hi => hagree i (List.mem_cons_of_mem ip hi)) h

/-- C6, witness: two threads carrying the same match slot at one position;
the second is skipped and the slot is recorded once. -/
theorem c6_witness :
    (threadLoop ⟨[Inst.Match 0, Inst.Match 0], false, [], false, 1, 2⟩
        [] ⟨0, none⟩ ⟨0, none⟩ [0, 1]
        ⟨[0, 1], [[[none]], [[none]]], [some 0, some 0]⟩
        (Threads.fresh ⟨[Inst.Match 0, Inst.Match 0], false, [], false, 1, 2⟩)
        ⟨[[none]], [false, false], false, []⟩ [] false =
      some (LoopExit.fall,
        ⟨[0, 1], [[[none]], [[none]]], [some 0, some 0]⟩,
        Threads.fresh ⟨[Inst.Match 0, Inst.Match 0], false, [], false, 1, 2⟩,
        ⟨[[none]], [true, false], false, [0]⟩, [0], true)) ∧
    [0].Nodup := by
  constructor
  · decide
  · have h := (c6_seen_dedup
      ⟨[Inst.Match 0, Inst.Match 0], false, [], false, 1, 2⟩ [] ⟨0, none⟩
      ⟨0, none⟩).2 [0, 1]
      ⟨[0, 1], [[[none]], [[none]]], [some 0, some 0]⟩
      (Threads.fresh ⟨[Inst.Match 0, Inst.Match 0], false, [], false, 1, 2⟩)
      ⟨[[none]], [false, false], false, []⟩ [] false LoopExit.fall
      ⟨[0, 1], [[[none]], [[none]]], [some 0, some 0]⟩
      (Threads.fresh ⟨[Inst.Match 0, Inst.Match 0], false, [], false, 1, 2⟩)
      ⟨[[none]], [true, false], false, [0]⟩ [0] true
      (by
        intro i hi j hj
        simp only [List.mem_cons, List.mem_singleton,
          List.not_mem_nil, or_false] at hi
        rcases hi with rfl | rfl
        · have hj0 : Inst.Match 0 = Inst.Match j := by simpa using hj
          cases hj0
          decide
        · have hj0 : Inst.Match 0 = Inst.Match j := by simpa using hj
          cases hj0
          decide)
      (by decide)
    rcases h with ⟨t, ht1, ht2, ht3, _⟩
    have : t = [0] := by
      have := ht2
      simpa using this.symm
    rw [← this]
    exact ht3

/-! ### Claim C7: Save instructions in thread sets -/

/-- C7, counterexample: the epsilon closure (`Nfa::add`) starting at the
leading `Save` of a compiled `a` program inserts the `Save`'s instruction
pointer 0 into the thread set (`nlist.set = [0, 1]`), refuting the claim
that no Save instruction pointer is ever present in a thread set. -/
theorem c7_counterexample :
    (Nfa.add
        ⟨[Inst.Save ⟨0, 0, 1⟩, Inst.Char ⟨97, 2⟩, Inst.Save ⟨0, 1, 3⟩,
          Inst.Match 0], false, [], false, 1, 2⟩
        [97]
        (Threads.fresh
          ⟨[Inst.Save ⟨0, 0, 1⟩, Inst.Char ⟨97, 2⟩, Inst.Save ⟨0, 1, 3⟩,
            Inst.Match 0], false, [], false, 1, 2⟩)
        [[none, none]] none 0 (charAt [97] 0)).map (fun r => r.1.set) =
      some [0, 1] ∧
    [Inst.Save ⟨0, 0, 1⟩, Inst.Char ⟨97, 2⟩, Inst.Save ⟨0, 1, 3⟩,
        Inst.Match 0].get? 0 = some (Inst.Save ⟨0, 0, 1⟩) ∧
    [0, 1].contains 0 = true :=
  ⟨by decide, by decide, by decide⟩

/-- C7 (amended): `Save` instruction pointers do appear in thread sets, but
only as visited markers of the epsilon closure: stepping a thread at a
`Save` ip is a no-op, and during `add_step` an unvisited `Save` is marked
visited and transparently followed to its goto, its effect stored in the
thread's captures (with a restore frame pushed for backtracking). -/
theorem c7_save_transparent (prog : Program) (text : List Nat)
    (search : Search) (nlist : Threads) (tcaps : Caps) (ms : Option Nat)
    (ip : Nat) (at_ at_next : InputAt) (sv : InstSave)
    (hins : prog.insts.get? ip = some (Inst.Save sv)) :
    Nfa.step prog text search nlist tcaps ms ip at_ at_next =
      some (false, search, nlist, tcaps, ms) ∧
    (∀ (fuel : Nat) (stack : List FollowEpsilon) (old : Option Nat),
      nlist.set.contains ip = false →
      capsCapture tcaps sv.match_slot sv.capture_slot = some old →
      addStep prog text (fuel + 1) stack nlist tcaps ms ip at_ =
        addStep prog text fuel
          (FollowEpsilon.Capture sv ms old :: stack)
          { nlist with set := nlist.set ++ [ip] }
          (capsSetCapture tcaps sv.match_slot sv.capture_slot
            (some at_.pos))
          (some sv.match_slot) sv.goto at_) := by
  constructor
  · unfold Nfa.step
    rw [hins]
  · intro fuel stack old hcontains hold
    conv_lhs => unfold addStep
    rw [hcontains]
    simp only [Bool.false_eq_true, if_false]
    rw [hins]
    dsimp only
    rw [hold]

/-- C7, witness: the no-op step and the transparent follow, instantiated on
the compiled `a` program at its leading `Save`. -/
theorem c7_witness :
    Nfa.step
      ⟨[Inst.Save ⟨0, 0, 1⟩, Inst.Char ⟨97, 2⟩, Inst.Save ⟨0, 1, 3⟩,
        Inst.Match 0], false, [], false, 1, 2⟩
      [97] ⟨[[none, none]], [false], false, []⟩
      (Threads.fresh
        ⟨[Inst.Save ⟨0, 0, 1⟩, Inst.Char ⟨97, 2⟩, Inst.Save ⟨0, 1, 3⟩,
          Inst.Match 0], false, [], false, 1, 2⟩)
      [[none, none]] none 0 (charAt [97] 0) (charAt [97] 1) =
      some (false, ⟨[[none, none]], [false], false, []⟩,
        Threads.fresh
          ⟨[Inst.Save ⟨0, 0, 1⟩, Inst.Char ⟨97, 2⟩, Inst.Save ⟨0, 1, 3⟩,
            Inst.Match 0], false, [], false, 1, 2⟩,
        [[none, none]], none) :=
  (c7_save_transparent
    ⟨[Inst.Save ⟨0, 0, 1⟩, Inst.Char ⟨97, 2⟩, Inst.Save ⟨0, 1, 3⟩,
      Inst.Match 0], false, [], false, 1, 2⟩
    [97] ⟨[[none, none]], [false], false, []⟩
    (Threads.fresh
      ⟨[Inst.Save ⟨0, 0, 1⟩, Inst.Char ⟨97, 2⟩, Inst.Save ⟨0, 1, 3⟩,
        Inst.Match 0], false, [], false, 1, 2⟩)
    [[none, none]] none 0 (charAt [97] 0) (charAt [97] 1) ⟨0, 0, 1⟩
    (by decide)).1

/-! ## Set execution (`src/set_exec.rs`) -/

/-- Modelled from the spec: a chain of `Char` instructions for one literal
pattern starting at instruction address `base`. -/
def charChain (base : Nat) : List Nat → List Inst
  | [] => []
  | c :: rest => Inst.Char ⟨c, base + 1⟩ :: charChain (base + 1) rest

/-- Modelled from the spec: the compiled body of sub-pattern `i` at base
address `base`: `Save(i,0)`, the literal characters, `Save(i,1)`,
`Match(i)`. -/
def patInsts (base i : Nat) (p : List Nat) : List Inst :=
  Inst.Save ⟨i, 0, base + 1⟩ :: charChain (base + 1) p ++
    [Inst.Save ⟨i, 1, base + 2 + p.length⟩, Inst.Match i]

/-- Modelled from the spec: `new_many` wraps the patterns in a top-level
alternation, a Split chain forking into each sub-pattern's code, each
alternative ending in its own `Match(i)` (spec sections 3 and 4.5). -/
def manyInsts (base i : Nat) : List (List Nat) → List Inst
  | [] => []
  | [p] => patInsts base i p
  | p :: p2 :: rest =>
    Inst.Split ⟨base + 1, base + 1 + (patInsts (base + 1) i p).length⟩ ::
      patInsts (base + 1) i p ++
      manyInsts (base + 1 + (patInsts (base + 1) i p).length) (i + 1)
        (p2 :: rest)

/-- Modelled from the spec: `ProgramBuilder::new_many(..).size_limit(..)
.dfa(..).reverse(..).compile()` (program.rs is not among the sources).
The external parser is modelled as reading each regex as a literal
pattern; `reverse` reverses each pattern's codepoints; `dfa` produces the
byte-oriented program, whose literal-prefix finder is weaker than the
Unicode one (spec section 4.5) and is modelled as finding nothing, while
the Unicode finder yields the literal patterns themselves; the capture
geometry (one overall group, two slots) and `num_sub_patterns` come from
the shared source ASTs. -/
def programBuilderCompile (res : List String) (size_limit : Nat)
    (dfa rev : Bool) : Except CErr Program :=
  let pats := res.map fun str =>
    if rev then (str.data.map Char.toNat).reverse
    else str.data.map Char.toNat
  let insts := manyInsts 0 0 pats
  if insts.length > size_limit then
    Except.error (CErr.compiledTooBig size_limit)
  else
    Except.ok
      { insts := insts,
        anchored_begin := false,
        prefixes :=
          if dfa then []
          else if pats.all (fun p => !p.isEmpty) then pats else [],
        is_bytes := dfa,
        num_sub_patterns := res.length,
        num_capture_slots := 2 }

/-- The SetExec struct (set_exec.rs lines 20-25): the forward Unicode
program, the forward and reverse byte-oriented DFA programs, and the
`can_dfa` flag. -/
structure SetExec where
  prog : Program
  dfa : Program
  dfa_reverse : Program
  can_dfa : Bool
deriving DecidableEq, Repr

/-- The SetExecBuilder struct (set_exec.rs lines 27-43): the patterns and
the size limit (default `10 * (1 << 20)`). -/
structure SetExecBuilder where
  res : List String
  size_limit : Nat
deriving DecidableEq, Repr

/-- SetExecBuilder::new (set_exec.rs line 33). -/
def SetExecBuilder.new (res : List String) : SetExecBuilder :=
  ⟨res, 10 * (1 <<< 20)⟩

/-- SetExecBuilder::build (set_exec.rs lines 45-72): compile the forward
Unicode program, the forward byte DFA program (whose prefixes are then
overwritten with the Unicode program's, because the byte-based literal
finder is sub-optimal), and the reverse byte DFA program (whose prefixes
are NOT overwritten); `can_dfa` is hard-coded to false (the
`dfa::can_exec` call is commented out in the source). -/
def SetExecBuilder.build (b : SetExecBuilder) : Except CErr SetExec :=
  match programBuilderCompile b.res b.size_limit false false with
  | Except.error e => Except.error e
  | Except.ok prog =>
    match programBuilderCompile b.res b.size_limit true false with
    | Except.error e => Except.error e
    | Except.ok dfa0 =>
      match programBuilderCompile b.res b.size_limit true true with
      | Except.error e => Except.error e
      | Except.ok dfaRev =>
        Except.ok ⟨prog, { dfa0 with prefixes := prog.prefixes }, dfaRev,
          false⟩

/-- The number of `Match` instructions of a program
(`prog.insts.matches().len()`, used to size the `matches` vector in
set_exec.rs line 95). -/
def matchInstCount (l : List Inst) : Nat :=
  l.countP fun i =>
    match i with
    | Inst.Match _ => true
    | _ => false

/-- SetExec::exec_nfa (set_exec.rs lines 89-109): run the NFA over the
forward program with a fresh all-false `matches` vector sized by the
program's `Match` instructions; the byte/char input split of the source
collapses here because the input adapter is modelled on codepoints. -/
def SetExec.exec_nfa (se : SetExec) (caps : Caps) (text : List Nat)
    (start : Nat) : Option (Bool × Search) :=
  if se.prog.is_bytes then
    Nfa.exec se.prog text start
      ⟨caps, List.replicate (matchInstCount se.prog.insts) false, false, []⟩
  else
    Nfa.exec se.prog text start
      ⟨caps, List.replicate (matchInstCount se.prog.insts) false, false, []⟩

/-- SetExec::exec_dfa (set_exec.rs lines 111-118): `unreachable!()`,
modelled as a panic. -/
def SetExec.exec_dfa (_ : SetExec) (_ : Caps) (_ : List Nat) (_ : Nat) :
    Option (Bool × Search) :=
  none

/-- SetExec::exec (set_exec.rs lines 76-87): dispatch on `can_dfa`. -/
def SetExec.exec (se : SetExec) (caps : Caps) (text : List Nat)
    (start : Nat) : Option (Bool × Search) :=
  if se.can_dfa then se.exec_dfa caps text start
  else se.exec_nfa caps text start

theorem programBuilderCompile_fields {res : List String}
    {size_limit : Nat} {dfa rev : Bool} {p : Program}
    (h : programBuilderCompile res size_limit dfa rev = Except.ok p) :
    p.num_sub_patterns = res.length ∧ p.num_capture_slots = 2 := by
  simp only [programBuilderCompile] at h
  by_cases hlen :
      (manyInsts 0 0 (res.map fun str =>
        if rev then (str.data.map Char.toNat).reverse
        else str.data.map Char.toNat)).length > size_limit
  · rw [if_pos hlen] at h
    cases h
  · rw [if_neg hlen] at h
    cases Except.ok.inj h
    exact ⟨rfl, rfl⟩

/-- C9, counterexample: building the one-pattern set `a` copies the
Unicode program's prefix literals into the forward byte program but not
into the reverse byte program, whose prefix literals stay those of the
weaker byte-oriented finder — so the two byte-oriented programs do not
both agree with the forward Unicode program on `prefix_literals`. -/
theorem c9_counterexample :
    SetExecBuilder.build ⟨["a"], 1000000⟩ =
      Except.ok
        ⟨⟨[Inst.Save ⟨0, 0, 1⟩, Inst.Char ⟨97, 2⟩, Inst.Save ⟨0, 1, 3⟩,
            Inst.Match 0], false, [[97]], false, 1, 2⟩,
          ⟨[Inst.Save ⟨0, 0, 1⟩, Inst.Char ⟨97, 2⟩, Inst.Save ⟨0, 1, 3⟩,
            Inst.Match 0], false, [[97]], true, 1, 2⟩,
          ⟨[Inst.Save ⟨0, 0, 1⟩, Inst.Char ⟨97, 2⟩, Inst.Save ⟨0, 1, 3⟩,
            Inst.Match 0], false, [], true, 1, 2⟩, false⟩ ∧
    ([] : List (List Nat)) ≠ [[97]] :=
  ⟨by decide, by decide⟩

/-- C9 (amended): for every pattern list on which `SetExecBuilder::build`
succeeds, the forward byte-oriented DFA program's prefix literals equal
the forward Unicode program's (they are copied from it), and both
byte-oriented programs agree with the Unicode program on
`num_sub_patterns` and `num_capture_slots_per_pattern` (all three are
compiled from the same source ASTs); the reverse byte-oriented program's
prefix literals are not copied and need not agree. -/
theorem c9_programs_agreement (b : SetExecBuilder) (se : SetExec)
    (h : b.build = Except.ok se) :
    se.dfa.prefixes = se.prog.prefixes ∧
    se.dfa.num_sub_patterns = se.prog.num_sub_patterns ∧
    se.dfa_reverse.num_sub_patterns = se.prog.num_sub_patterns ∧
    se.dfa.num_capture_slots = se.prog.num_capture_slots ∧
    se.dfa_reverse.num_capture_slots = se.prog.num_capture_slots := by
  unfold SetExecBuilder.build at h
  split at h
  · cases h
  · rename_i prog hprog
    split at h
    · cases h
    · rename_i dfa0 hdfa
      split at h
      · cases h
      · rename_i dfaRev hrev
        cases Except.ok.inj h
        rcases programBuilderCompile_fields hprog with ⟨hp1, hp2⟩
        rcases programBuilderCompile_fields hdfa with ⟨hd1, hd2⟩
        rcases programBuilderCompile_fields hrev with ⟨hr1, hr2⟩
        exact ⟨rfl, by simp [hd1, hp1], by simp [hr1, hp1],
          by simp [hd2, hp2], by simp [hr2, hp2]⟩

/-- C9, witness: the agreement instantiated on the concrete build of
`a`. -/
theorem c9_witness :
    (SetExecBuilder.build ⟨["a"], 1000000⟩ =
      Except.ok
        ⟨⟨[Inst.Save ⟨0, 0, 1⟩, Inst.Char ⟨97, 2⟩, Inst.Save ⟨0, 1, 3⟩,
            Inst.Match 0], false, [[97]], false, 1, 2⟩,
          ⟨[Inst.Save ⟨0, 0, 1⟩, Inst.Char ⟨97, 2⟩, Inst.Save ⟨0, 1, 3⟩,
            Inst.Match 0], false, [[97]], true, 1, 2⟩,
          ⟨[Inst.Save ⟨0, 0, 1⟩, Inst.Char ⟨97, 2⟩, Inst.Save ⟨0, 1, 3⟩,
            Inst.Match 0], false, [], true, 1, 2⟩, false⟩) ∧
    ([[97]] : List (List Nat)) = [[97]] :=
  ⟨by decide,
   (c9_programs_agreement ⟨["a"], 1000000⟩
     ⟨⟨[Inst.Save ⟨0, 0, 1⟩, Inst.Char ⟨97, 2⟩, Inst.Save ⟨0, 1, 3⟩,
         Inst.Match 0], false, [[97]], false, 1, 2⟩,
       ⟨[Inst.Save ⟨0, 0, 1⟩, Inst.Char ⟨97, 2⟩, Inst.Save ⟨0, 1, 3⟩,
         Inst.Match 0], false, [[97]], true, 1, 2⟩,
       ⟨[Inst.Save ⟨0, 0, 1⟩, Inst.Char ⟨97, 2⟩, Inst.Save ⟨0, 1, 3⟩,
         Inst.Match 0], false, [], true, 1, 2⟩, false⟩ (by decide)).1⟩

/-- C10: every `SetExec` produced by `SetExecBuilder::build` has
`can_dfa = false`, so `SetExec::exec` always dispatches to `exec_nfa` and
the `exec_dfa` branch (an `unreachable!()`) is never executed, even though
the two byte-oriented DFA programs are compiled and stored. -/
theorem c10_exec_dispatches_nfa (b : SetExecBuilder) (se : SetExec)
    (h : b.build = Except.ok se) :
    se.can_dfa = false ∧
    ∀ (caps : Caps) (text : List Nat) (start : Nat),
      se.exec caps text start = se.exec_nfa caps text start := by
  have hfalse : se.can_dfa = false := by
    unfold SetExecBuilder.build at h
    split at h
    · cases h
    · split at h
      · cases h
      · split at h
        · cases h
        · cases Except.ok.inj h
          rfl
  exact ⟨hfalse, fun caps text start => by
    unfold SetExec.exec
    rw [hfalse]
    simp⟩

/-- C10, witness: the dispatch equality on the concrete build of `a`. -/
theorem c10_witness :
    (SetExec.mk
        ⟨[Inst.Save ⟨0, 0, 1⟩, Inst.Char ⟨97, 2⟩, Inst.Save ⟨0, 1, 3⟩,
          Inst.Match 0], false, [[97]], false, 1, 2⟩
        ⟨[Inst.Save ⟨0, 0, 1⟩, Inst.Char ⟨97, 2⟩, Inst.Save ⟨0, 1, 3⟩,
          Inst.Match 0], false, [[97]], true, 1, 2⟩
        ⟨[Inst.Save ⟨0, 0, 1⟩, Inst.Char ⟨97, 2⟩, Inst.Save ⟨0, 1, 3⟩,
          Inst.Match 0], false, [], true, 1, 2⟩ false).can_dfa = false ∧
    SetExec.exec
      (SetExec.mk
        ⟨[Inst.Save ⟨0, 0, 1⟩, Inst.Char ⟨97, 2⟩, Inst.Save ⟨0, 1, 3⟩,
          Inst.Match 0], false, [[97]], false, 1, 2⟩
        ⟨[Inst.Save ⟨0, 0, 1⟩, Inst.Char ⟨97, 2⟩, Inst.Save ⟨0, 1, 3⟩,
          Inst.Match 0], false, [[97]], true, 1, 2⟩
        ⟨[Inst.Save ⟨0, 0, 1⟩, Inst.Char ⟨97, 2⟩, Inst.Save ⟨0, 1, 3⟩,
          Inst.Match 0], false, [], true, 1, 2⟩ false)
      [[none, none]] [97] 0 =
    SetExec.exec_nfa
      (SetExec.mk
        ⟨[Inst.Save ⟨0, 0, 1⟩, Inst.Char ⟨97, 2⟩, Inst.Save ⟨0, 1, 3⟩,
          Inst.Match 0], false, [[97]], false, 1, 2⟩
        ⟨[Inst.Save ⟨0, 0, 1⟩, Inst.Char ⟨97, 2⟩, Inst.Save ⟨0, 1, 3⟩,
          Inst.Match 0], false, [[97]], true, 1, 2⟩
        ⟨[Inst.Save ⟨0, 0, 1⟩, Inst.Char ⟨97, 2⟩, Inst.Save ⟨0, 1, 3⟩,
          Inst.Match 0], false, [], true, 1, 2⟩ false)
      [[none, none]] [97] 0 := by
  have h := c10_exec_dispatches_nfa ⟨["a"], 1000000⟩
    (SetExec.mk
      ⟨[Inst.Save ⟨0, 0, 1⟩, Inst.Char ⟨97, 2⟩, Inst.Save ⟨0, 1, 3⟩,
        Inst.Match 0], false, [[97]], false, 1, 2⟩
      ⟨[Inst.Save ⟨0, 0, 1⟩, Inst.Char ⟨97, 2⟩, Inst.Save ⟨0, 1, 3⟩,
        Inst.Match 0], false, [[97]], true, 1, 2⟩
      ⟨[Inst.Save ⟨0, 0, 1⟩, Inst.Char ⟨97, 2⟩, Inst.Save ⟨0, 1, 3⟩,
        Inst.Match 0], false, [], true, 1, 2⟩ false) (by decide)
  exact ⟨h.1, h.2 [[none, none]] [97] 0⟩

example :
    compile 1 100 20 (Expr.Literal [97, 98] false) =
      some (Except.ok
        ([CInst.Save 0, CInst.Char 97, CInst.Char 98, CInst.Save 1,
          CInst.Match], [none])) := by
  decide

example :
    compile 1 100 20 (Expr.Literal [53] true) =
      some (Except.ok
        ([CInst.Save 0, CInst.Char 53, CInst.Save 1, CInst.Match],
          [none])) := by
  decide

example :
    compile 1 100 20 (Expr.Literal [97] true) =
      some (Except.ok
        ([CInst.Save 0, CInst.Ranges [(65, 65), (97, 97)], CInst.Save 1,
          CInst.Match], [none])) := by
  decide

example :
    compile 1 1 20 Expr.Empty =
      some (Except.ok ([CInst.Save 0, CInst.Save 1, CInst.Match],
        [none])) := by
  decide

example :
    compile 1 100 20 (Expr.Repeat Expr.Empty (Repeater.Range 0 (some 2)) true) =
      some (Except.ok
        ([CInst.Save 0, CInst.Split 2 3, CInst.Split 3 3, CInst.Save 1,
          CInst.Match], [none])) := by
  decide
